import Mathlib

/-!
Shallow embedding of the core geometry of the ceremony-game repository
(src/ceremony/geometry.py, src/ceremony/collection.py, src/ceremony/generate.py)
together with proofs of the specification claims about it.

Modelling conventions:
* Python `int` is `Int`; quantities that the code keeps non-negative (ring
  numbers, ring indices, distances, cardinalities) are `Nat` where the code
  only ever produces non-negative values.
* A Python `Hex` is a raw integer triple; the `q + r + s = 0` construction
  invariant (`InvalidHexError`) is the predicate `Hex.valid`.
* A Python `Shape` holds `hexes: FrozenSet[Hex]`; we model the frozenset as
  `Finset Hex`.  A frozenset has no intrinsic order, so operations of the
  source that fold over it with commutative/associative operations (sums,
  maxima, set construction) are modelled with the corresponding multiset
  folds, which are order-independent exactly like the Python results.
* Fallible operations (assertions, unreachable `raise` branches) return
  `Option`, `none` being the raising outcome.
* The two `while` loops normalising rotation steps are modelled as
  fuel-indexed structural recursions; the fuel (the magnitude of the input)
  provably dominates the number of iterations, see `stepsDown_eq_emod` /
  `stepsUp_spec` below.
-/

/-- Cube-coordinate hex cell: the three integer fields of the frozen Python
dataclass `Hex`. -/
structure Hex where
  q : Int
  r : Int
  s : Int
deriving DecidableEq, Repr

/-- The `__post_init__` invariant of `Hex`: constructing a triple whose
components do not sum to zero raises `InvalidHexError`. -/
def Hex.valid (h : Hex) : Prop := h.q + h.r + h.s = 0

instance (h : Hex) : Decidable h.valid :=
  inferInstanceAs (Decidable (h.q + h.r + h.s = 0))

/-- `Hex.__add__`. -/
def Hex.add (a b : Hex) : Hex := ⟨a.q + b.q, a.r + b.r, a.s + b.s⟩

/-- `Hex.__neg__`. -/
def Hex.neg (a : Hex) : Hex := ⟨-a.q, -a.r, -a.s⟩

/-- `Hex.__sub__` (defined in the source as `self + (-h)`). -/
def Hex.sub (a b : Hex) : Hex := a.add b.neg

/-- `Hex.__mul__` (componentwise scalar multiplication). -/
def Hex.mul (a : Hex) (m : Int) : Hex := ⟨a.q * m, a.r * m, a.s * m⟩

/-- `Hex.__floordiv__`: Python `//` is floor division, i.e. `Int.fdiv`. -/
def Hex.floordiv (a : Hex) (d : Int) : Hex := ⟨a.q.fdiv d, a.r.fdiv d, a.s.fdiv d⟩

/-- `Hex.is_origin`: the chained comparison `self.q == self.r == self.s == 0`. -/
def Hex.isOrigin (h : Hex) : Prop := h.q = h.r ∧ h.r = h.s ∧ h.s = 0

instance (h : Hex) : Decidable h.isOrigin :=
  inferInstanceAs (Decidable (h.q = h.r ∧ h.r = h.s ∧ h.s = 0))

/-- The loop `while steps > 5: steps -= 6` of `Hex.rotate`, with explicit
fuel; the fuel bounds the iteration count (each pass strictly shrinks
`steps.toNat`, see `stepsDown_eq_emod`). -/
def downFuel : Nat → Int → Int
  | 0, t => t
  | fuel + 1, t => if 5 < t then downFuel fuel (t - 6) else t

/-- The loop `while steps < 0: steps += 6` of `Hex.rotate`, with explicit
fuel. -/
def upFuel : Nat → Int → Int
  | 0, t => t
  | fuel + 1, t => if t < 0 then upFuel fuel (t + 6) else t

/-- First normalisation loop of `Hex.rotate`, run to completion. -/
def stepsDown (t : Int) : Int := downFuel t.toNat t

/-- Second normalisation loop of `Hex.rotate`, run to completion. -/
def stepsUp (t : Int) : Int := upFuel (-t).toNat t

/-- Body of `Hex.rotate` after step normalisation: the odd-step negation
and the (1,4)/(2,5) coordinate cycles, exactly as the source. -/
def rotateBody (h : Hex) (k : Int) : Hex :=
  if k = 0 then h
  else
    let a := if k % 2 = 1 then h.neg else h
    if k = 1 ∨ k = 4 then ⟨a.r, a.s, a.q⟩
    else if k = 2 ∨ k = 5 then ⟨a.s, a.q, a.r⟩
    else a

/-- `Hex.rotate(steps)`: normalise `steps` into `[0, 6)` by the two while
loops, then apply the rotation body. -/
def Hex.rotate (h : Hex) (steps : Int) : Hex :=
  rotateBody h (stepsUp (stepsDown steps))

/-- `Hex.ring`: `max(abs(q), abs(r), abs(s))`, always non-negative. -/
def Hex.ring (h : Hex) : Nat := max h.q.natAbs (max h.r.natAbs h.s.natAbs)

/-- The module-level direction constants of geometry.py. -/
def OR : Hex := ⟨0, 0, 0⟩

/-- The "up" unit direction `Hex(0, -1, 1)`. -/
def UP : Hex := ⟨0, -1, 1⟩

/-- `UR = UP.rotate()`. -/
def UR : Hex := UP.rotate 1

/-- `DR = UR.rotate()`. -/
def DR : Hex := UR.rotate 1

/-- `DN = DR.rotate()`. -/
def DN : Hex := DR.rotate 1

/-- `DL = DN.rotate()`. -/
def DL : Hex := DN.rotate 1

/-- `UL = DL.rotate()`. -/
def UL : Hex := DL.rotate 1

/-- The `DIRS` list of the six unit directions. -/
def DIRS : List Hex := [UP, UR, DR, DN, DL, UL]

/-- Tail of `Hex.ring_index` shared by the three sector branches: the
`if key > 0` sector flip, the sector start cell, and the clockwise offset
from it. -/
def sectorIndex (sector : Nat) (startd : Hex) (key : Int) (ring : Nat) (h : Hex) : Nat :=
  if 0 < key then (sector + 3) * ring + (h.sub ((startd.rotate 3).mul (ring : Int))).ring
  else sector * ring + (h.sub (startd.mul (ring : Int))).ring

/-- `Hex.ring_index`, with the unreachable `raise ValueError` branch (a cell
matching none of the three sector classifications) modelled as `none`. -/
def Hex.ringIndex? (h : Hex) : Option Nat :=
  if h.isOrigin then some 0
  else if h.q.natAbs < h.r.natAbs ∧ h.s.natAbs ≤ h.r.natAbs then
    some (sectorIndex 0 UP h.r h.ring h)
  else if h.s.natAbs < h.q.natAbs ∧ h.r.natAbs ≤ h.q.natAbs then
    some (sectorIndex 1 UR (-h.q) h.ring h)
  else if h.r.natAbs < h.s.natAbs ∧ h.q.natAbs ≤ h.s.natAbs then
    some (sectorIndex 2 DR h.s h.ring h)
  else none

/-- Total wrapper for `ring_index` used inside `ring_sum`; the `none` branch
is proven unreachable for valid cells (`ringIndex_isSome` below), so the
default value is never produced on the shapes the program builds. -/
def Hex.ringIndex (h : Hex) : Nat := (h.ringIndex?).getD 0

/-- `distance(h1, h2)`: ring of the difference. -/
def distance (h1 h2 : Hex) : Nat := (h1.sub h2).ring

/-- Insertion of an element into a (sorted) list, the building block we use
to model Python's `sorted(...)` on the contents of a frozenset. -/
def insertLe {α : Type} (le : α → α → Bool) (x : α) : List α → List α
  | [] => [x]
  | y :: ys => if le x y then x :: y :: ys else y :: insertLe le x ys

/-- For a total, antisymmetric, transitive boolean order, sorted insertion is
left-commutative, so folding it over a multiset is well defined: Python's
`sorted` applied to a frozenset does not depend on iteration order. -/
theorem insertLe_left_comm {α : Type} (le : α → α → Bool)
    (total : ∀ a b, le a b = true ∨ le b a = true)
    (antisymm : ∀ a b, le a b = true → le b a = true → a = b)
    (letrans : ∀ a b c, le a b = true → le b c = true → le a c = true) :
    ∀ (a b : α) (l : List α), insertLe le a (insertLe le b l) = insertLe le b (insertLe le a l) := by
  intro a b l
  induction l with
  | nil =>
    by_cases h1 : le a b <;> by_cases h2 : le b a
    · have : a = b := antisymm a b h1 h2
      subst this; rfl
    · simp [insertLe, h1, h2]
    · simp [insertLe, h1, h2]
    · rcases total a b with h | h
      · exact absurd h h1
      · exact absurd h h2
  | cons z zs ih =>
    by_cases hbz : le b z <;> by_cases haz : le a z
    · by_cases h1 : le a b <;> by_cases h2 : le b a
      · have : a = b := antisymm a b h1 h2
        subst this; rfl
      · simp [insertLe, h1, h2, hbz, haz]
      · simp [insertLe, h1, h2, hbz, haz]
      · rcases total a b with h | h
        · exact absurd h h1
        · exact absurd h h2
    · have hab : le a b = false := by
        by_cases h : le a b
        · exact absurd (letrans a b z h hbz) (by simpa using haz)
        · simpa using h
      simp [insertLe, hbz, haz, hab]
    · have hba : le b a = false := by
        by_cases h : le b a
        · exact absurd (letrans b a z h haz) (by simpa using hbz)
        · simpa using h
      simp [insertLe, hbz, haz, hba]
    · have hbz' : le b z = false := by simpa using hbz
      have haz' : le a z = false := by simpa using haz
      simp [insertLe, hbz', haz', ih]

/-- Boolean form of the tuple ordering `(q, r, s) < (q, r, s)` that Python's
`@total_ordering`-completed `Hex.__lt__` induces (here as the reflexive
`<=`, which is what `sorted` consumes). -/
def hexLeB (a b : Hex) : Bool :=
  decide (a.q < b.q ∨ (a.q = b.q ∧ (a.r < b.r ∨ (a.r = b.r ∧ a.s ≤ b.s))))

/-- Boolean `<=` on integers, for sorting coordinate lists. -/
def intLeB (a b : Int) : Bool := a ≤ b

theorem hexLeB_total : ∀ a b, hexLeB a b = true ∨ hexLeB b a = true := by
  intro a b; simp only [hexLeB, decide_eq_true_eq]; omega

theorem hexLeB_antisymm : ∀ a b, hexLeB a b = true → hexLeB b a = true → a = b := by
  intro a b h1 h2
  simp only [hexLeB, decide_eq_true_eq] at h1 h2
  cases a; cases b; simp only [Hex.mk.injEq]
  refine ⟨?_, ?_, ?_⟩ <;> simp_all <;> omega

theorem hexLeB_trans : ∀ a b c, hexLeB a b = true → hexLeB b c = true → hexLeB a c = true := by
  intro a b c h1 h2
  simp only [hexLeB, decide_eq_true_eq] at h1 h2 ⊢
  omega

instance : LeftCommutative (insertLe hexLeB) :=
  ⟨insertLe_left_comm hexLeB hexLeB_total hexLeB_antisymm hexLeB_trans⟩

instance : LeftCommutative (insertLe intLeB) :=
  ⟨insertLe_left_comm intLeB (by intro a b; simp [intLeB]; omega)
    (by intro a b h1 h2; simp [intLeB] at h1 h2; omega)
    (by intro a b c h1 h2; simp [intLeB] at h1 h2 ⊢; omega)⟩

/-- `sorted(...)` on a multiset of hexes (tuple ordering). -/
def sortHexes (m : Multiset Hex) : List Hex := Multiset.foldr (insertLe hexLeB) [] m

/-- `sorted(...)` on a multiset of integers. -/
def sortInts (m : Multiset Int) : List Int := Multiset.foldr (insertLe intLeB) [] m

/-- The frozen Python dataclass `Shape`, whose single field `hexes` is a
frozenset of cells. -/
structure Shape where
  hexes : Finset Hex
deriving DecidableEq

/-- `Shape.translate`. -/
def Shape.translate (s : Shape) (h : Hex) : Shape := ⟨s.hexes.image (fun n => n.add h)⟩

/-- `Shape.rotate` (pointwise cell rotation, "not normalized"). -/
def Shape.rotate (s : Shape) (steps : Int) : Shape :=
  ⟨s.hexes.image (fun h => h.rotate steps)⟩

/-- `Shape.scale_up`. -/
def Shape.scale_up (s : Shape) (factor : Int) : Shape :=
  ⟨s.hexes.image (fun n => n.mul factor)⟩

/-- `Shape.scale_down`. -/
def Shape.scale_down (s : Shape) (factor : Int) : Shape :=
  ⟨s.hexes.image (fun n => n.floordiv factor)⟩

/-- `Shape.sum`: the vector sum of all cells.  The Python `reduce` over
`+` is order-independent, so the componentwise `Finset.sum` is the same
value. -/
def Shape.sum (s : Shape) : Hex :=
  ⟨∑ h ∈ s.hexes, h.q, ∑ h ∈ s.hexes, h.r, ∑ h ∈ s.hexes, h.s⟩

/-- `Shape.mean`: floor division of the vector sum by the cell count
(Python raises `ZeroDivisionError` on the empty shape; `Int.fdiv _ 0 = 0`
here, and every use site is guarded by non-emptiness). -/
def Shape.mean (s : Shape) : Hex := s.sum.floordiv (s.hexes.card : Int)

/-- `Shape.ring_sum(ring)`: binary signature of one ring,
`sum(2 ** h.ring_index() for h in hexes if h.ring() == ring)`. -/
def Shape.ring_sum (s : Shape) (ring : Nat) : Nat :=
  ∑ h ∈ s.hexes.filter (fun h => h.ring = ring), 2 ^ h.ringIndex

/-- Steps 1–2 of `Shape.normalize`: scale up by the cell count and translate
the vector mean to the origin. -/
def Shape.centered (s : Shape) : Shape :=
  (s.scale_up (s.hexes.card : Int)).translate ((s.scale_up (s.hexes.card : Int)).mean).neg

/-- `max(h.ring() for h in s.hexes)` over the centered shape (the max of a
non-empty generator; `sup` agrees with it on the non-empty shapes this is
applied to). -/
def Shape.outerRing (s : Shape) : Nat := s.hexes.sup Hex.ring

/-- Python `min(...)` over a non-empty list of naturals (`min([])` would
raise; the `[]` case is junk and every use site is proven non-empty). -/
def listMinNat : List Nat → Nat
  | [] => 0
  | x :: xs => xs.foldl min x

/-- One pass of the ring-disambiguation loop body of `Shape.normalize`:
pair every rotation with its ring signature and keep exactly those
attaining the minimal signature (in list order). -/
def normFilter (rots : List Shape) (ring : Nat) : List Shape :=
  ((rots.map (fun r => (r, r.ring_sum ring))).filter
    (fun p => p.2 = listMinNat ((rots.map (fun r => (r, r.ring_sum ring))).map Prod.snd))).map
    Prod.fst

/-- The `while ring <= outer_ring` loop of `Shape.normalize`, structurally
recursive on the number of remaining rings (`outer_ring + 1 - ring` at the
top-level call): filter by ring signature, break as soon as a single
rotation remains. -/
def normLoopAux : List Shape → Nat → Nat → List Shape
  | rots, _, 0 => rots
  | rots, ring, k + 1 =>
    let rots2 := normFilter rots ring
    if rots2.length = 1 then rots2 else normLoopAux rots2 (ring + 1) k

/-- Steps 3–4 of `Shape.normalize`: the six rotations of the centered shape,
disambiguated ring by ring from ring 1 up to the outer ring.  (The `else`
branch of the Python loop only `assert`s that all survivors are equal; that
assertion is proved as `survivors_eq` below.) -/
def Shape.survivors (s : Shape) : List Shape :=
  let c := s.centered
  normLoopAux ((List.range 6).map (fun i : Nat => c.rotate (i : Int))) 1 c.outerRing

/-- `rotations[0]` after the loop: the chosen rotation.  The list is proven
non-empty (`survivors_ne_nil`), so the default is never taken. -/
def Shape.normChosen (s : Shape) : Shape := (s.survivors).headD s.centered

/-- `sorted(s.hexes)[0]`: the lexicographically least cell of the chosen
rotation. -/
def Shape.minHex (s : Shape) : Hex := (sortHexes s.hexes.val).headD OR

/-- Step 5 of `Shape.normalize` before the final rescale: translate the
least cell of the chosen rotation to the origin. -/
def Shape.normPre (s : Shape) : Shape :=
  (s.normChosen).translate (s.normChosen.minHex.neg)

/-- `Shape.normalize`: the empty shape is returned as is; otherwise center,
pick the canonical rotation, move the least cell to the origin and scale
back down by the cell count. -/
def Shape.normalize (s : Shape) : Shape :=
  if s.hexes = ∅ then s else (s.normPre).scale_down (s.hexes.card : Int)

/-- Total cost of pairing two equally long cell lists position by position:
the entries of the `shape_distance` cost matrix that one complete
assignment selects. -/
def pairCost : List Hex → List Hex → Nat
  | a :: la, b :: lb => distance a b ^ 2 + pairCost la lb
  | _, _ => 0

/-- `shape_distance(s1, s2)`.  The source asserts equal cell counts
(`AssertionError`, modelled as `none`), fills the matrix of squared cell
distances and hands it to `scipy.optimize.linear_sum_assignment`, whose
documented contract is to return a complete assignment of minimal total
cost.  That minimum does not depend on the enumeration order of either
frozenset, so the external call is modelled (from the scipy contract) as
the minimum of the total cost over all orderings of `s2`'s cells against a
fixed ordering of `s1`'s — i.e. over all bijections; `shape_distance_spec`
states this equivalence precisely. -/
def shape_distance? (s1 s2 : Shape) : Option Nat :=
  if s1.hexes.card = s2.hexes.card then
    some (listMinNat (((sortHexes s2.hexes.val).permutations).map
      (fun l2 => pairCost (sortHexes s1.hexes.val) l2)))
  else none

/-- Total squared-distance cost of matching each cell of `s1` to its image
under a candidate bijection — the quantity the specification says
`shape_distance` minimises (spec-side definition, for comparison with the
implementation). -/
def bijCost (f : Hex → Hex) (s1 : Shape) : Nat := ∑ h ∈ s1.hexes, distance h (f h) ^ 2

/-- The `for d in DIRS` loop of `min_shape_distance`, threading the current
best `(min_dist, min_trans)` through the candidate unit translations; a
size-mismatched `shape_distance` call inside the loop (impossible, since
translation preserves cardinality) propagates as `none`. -/
def bestTrans (s2 : Shape) : List Shape → Nat → Shape → Option (Nat × Shape)
  | [], d, t => some (d, t)
  | c :: cs, d, t =>
    match shape_distance? c s2 with
    | none => none
    | some dc => if dc < d then bestTrans s2 cs dc c else bestTrans s2 cs d t

/-- The loop of `min_shape_distance` either keeps the initial pair or
returns a strictly better candidate from the list together with its
distance.  (Needed up front: it justifies the termination of the
recursion in `min_shape_distance?`.) -/
theorem bestTrans_spec (s2 : Shape) (cs : List Shape) :
    ∀ (d : Nat) (t : Shape) (md : Nat) (mt : Shape),
      bestTrans s2 cs d t = some (md, mt) →
      (md = d ∧ mt = t) ∨ (md < d ∧ mt ∈ cs ∧ shape_distance? mt s2 = some md) := by
  induction cs with
  | nil =>
    intro d t md mt h
    simp only [bestTrans, Option.some.injEq, Prod.mk.injEq] at h
    exact Or.inl ⟨h.1.symm, h.2.symm⟩
  | cons c cs ih =>
    intro d t md mt h
    simp only [bestTrans] at h
    split at h
    · exact absurd h (by simp)
    · rename_i dc hc
      split at h
      · rename_i hlt
        rcases ih dc c md mt h with ⟨h1, h2⟩ | ⟨h1, h2, h3⟩
        · exact Or.inr ⟨by omega, by rw [h2]; exact List.mem_cons_self c cs,
            by rw [h2, h1]; exact hc⟩
        · exact Or.inr ⟨by omega, List.mem_cons_of_mem c h2, h3⟩
      · rcases ih d t md mt h with ⟨h1, h2⟩ | ⟨h1, h2, h3⟩
        · exact Or.inl ⟨h1, h2⟩
        · exact Or.inr ⟨h1, List.mem_cons_of_mem c h2, h3⟩

/-- `min_shape_distance(s1, s2)`: minimise `shape_distance` over repeated
unit translations of `s1`.  The recursion is exactly the source's: it
recurses only when some neighbour translation strictly lowered the
distance, and that strictly smaller distance is the termination measure. -/
def min_shape_distance? (s1 s2 : Shape) : Option Nat :=
  match h1 : shape_distance? s1 s2 with
  | none => none
  | some d =>
    match h2 : bestTrans s2 (DIRS.map (fun dd => s1.translate dd)) d s1 with
    | none => none
    | some md_mt =>
      if hms : md_mt.2 = s1 then some md_mt.1
      else min_shape_distance? md_mt.2 s2
termination_by (shape_distance? s1 s2).getD 0
decreasing_by
  rcases bestTrans_spec s2 _ d s1 md_mt.1 md_mt.2 (by rw [h2]) with ⟨_, h4⟩ | ⟨h3, _, h5⟩
  · exact absurd h4 hms
  · rw [h1, h5]; simpa using h3

/-- The mutable `ShapeSet` of collection.py; only the insertion-order list
of accepted shapes is observable through the claims (the internal trie is
dead code, see `ShapeSet.add`). -/
structure ShapeSet where
  shapes : List Shape

/-- `ShapeSet.add`.  The empty shape is rejected up front (`return False`).
For every non-empty shape the source then runs
`s = shape.normalize()` — whose result stores `hexes` as a `frozenset`
(every constructor in geometry.py builds `Shape(frozenset(...))`) — and
immediately evaluates the sequence subscripts `s.hexes[0]` and
`s.hexes[1:]`.  A Python frozenset defines no `__getitem__`, so this
raises `TypeError: 'frozenset' object is not subscriptable` before any
tree node is touched; the raise is modelled as `none`, and the trie walk
that follows the subscript in the source is unreachable. -/
def ShapeSet.add (ss : ShapeSet) (shape : Shape) : Option (ShapeSet × Bool) :=
  if shape.hexes = ∅ then some (ss, false)
  else none

/-- `Shape.of(*hs)`: build the frozenset of the given cells and normalize. -/
def Shape.of (hs : List Hex) : Shape := Shape.normalize ⟨hs.toFinset⟩

/-- `extensions(base)` from generate.py: for every cell and direction whose
sum is a fresh cell, the normalized shape extended by that cell; the
generator's `seen`-set deduplication makes the yielded collection exactly
this image, so it is modelled as the finite set of yielded shapes.
`Shape.of(*base.hexes, cand)` builds `frozenset(base.hexes) ∪ {cand}`
before normalizing, i.e. `insert` on the cell set. -/
def extensions (base : Shape) : Finset Shape :=
  ((base.hexes ×ˢ DIRS.toFinset).filter (fun p => (p.1.add p.2) ∉ base.hexes)).image
    (fun p => Shape.normalize ⟨insert (p.1.add p.2) base.hexes⟩)

/-- `max_length(shape)` from generate.py: spans of the sorted coordinate
lists (`x[-1] - x[0]`), combined pairwise, maximum of the three.  The
sorted coordinate lists keep multiplicities, exactly like the Python list
comprehensions. -/
def max_length (shape : Shape) : Int :=
  let q := sortInts (shape.hexes.val.map Hex.q)
  let r := sortInts (shape.hexes.val.map Hex.r)
  let z := sortInts (shape.hexes.val.map Hex.s)
  let qr_dist := (q.getLastD 0 - q.headD 0) + (r.getLastD 0 - r.headD 0)
  let qs_dist := (q.getLastD 0 - q.headD 0) + (z.getLastD 0 - z.headD 0)
  let rs_dist := (r.getLastD 0 - r.headD 0) + (z.getLastD 0 - z.headD 0)
  max qr_dist (max qs_dist rs_dist)

/-- The inner `for h in row` loop of `longest_line`: thread `curlen` and
`lastv` through one group's sorted second-coordinate values. -/
def lineFold : List Int → Nat → Option Int → Nat
  | [], curlen, _ => curlen
  | v :: rest, curlen, lastv =>
    match lastv with
    | none => lineFold rest (curlen + 1) (some v)
    | some lv =>
      if v - lv = 1 then lineFold rest (curlen + 1) (some v) else lineFold rest 1 (some v)

/-- `longest_line(shape)` from generate.py: for each of the three dimension
pairs, group the cells (sorted by the pair) by the first coordinate and run
the consecutive-run fold over each group's sorted second coordinates; the
result folds each group's final run length into `max_line`, starting from 1
(exactly the source: only the value of `curlen` after a group's last cell
is compared against `max_line`).  Cells tied on both coordinates carry
equal second coordinates, so the fold's result is independent of how
Python's sort ordered them. -/
def longest_line (shape : Shape) : Nat :=
  let dims : List ((Hex → Int) × (Hex → Int)) := [(Hex.q, Hex.r), (Hex.r, Hex.s), (Hex.s, Hex.q)]
  ((dims.map (fun p =>
      (sortInts (shape.hexes.image p.1).val).map (fun k =>
        lineFold (sortInts ((shape.hexes.filter (fun h => p.1 h = k)).val.map p.2)) 0 none))).flatten).foldl
    max 1

/-- One pass of the `for i in range(size - 2)` loop of `generate_all`: all
admissible one-cell extensions of the current generation. -/
def genStep (shapes : Finset Shape) : Finset Shape :=
  shapes.biUnion (fun shape =>
    (extensions shape).filter (fun e => max_length e ≤ 8 ∧ longest_line e < 5))

/-- `generate_all(size)`: `assert size >= 2` (modelled as `none`), then grow
the singleton `{Shape.of(OR, UR)}` through `size - 2` extension passes. -/
def generate_all (size : Nat) : Option (Finset Shape) :=
  if 2 ≤ size then some (genStep^[size - 2] {Shape.of [OR, UR]}) else none

/-! ## The step-normalisation loops compute `steps mod 6` -/

theorem downFuel_spec : ∀ (fuel : Nat) (t : Int), t ≤ (fuel : Int) + 5 →
    downFuel fuel t ≤ 5 ∧ (downFuel fuel t) % 6 = t % 6 ∧ (0 ≤ t → 0 ≤ downFuel fuel t) := by
  intro fuel
  induction fuel with
  | zero => intro t ht; rw [downFuel]; omega
  | succ n ih =>
    intro t ht
    by_cases h5 : 5 < t
    · have := ih (t - 6) (by omega)
      rw [downFuel, if_pos h5]
      omega
    · rw [downFuel, if_neg h5]
      omega

theorem upFuel_spec : ∀ (fuel : Nat) (t : Int), -(fuel : Int) ≤ t →
    0 ≤ upFuel fuel t ∧ (upFuel fuel t) % 6 = t % 6 ∧ (t ≤ 5 → upFuel fuel t ≤ 5) := by
  intro fuel
  induction fuel with
  | zero => intro t ht; rw [upFuel]; omega
  | succ n ih =>
    intro t ht
    by_cases h0 : t < 0
    · have := ih (t + 6) (by omega)
      rw [upFuel, if_pos h0]
      omega
    · rw [upFuel, if_neg h0]
      omega

/-- The two while loops of `Hex.rotate` land exactly on `steps % 6 ∈ [0, 6)`. -/
theorem stepsNorm_eq (t : Int) : stepsUp (stepsDown t) = t % 6 := by
  have hd := downFuel_spec t.toNat t (by omega)
  have hu := upFuel_spec (-(stepsDown t)).toNat (stepsDown t) (by omega)
  unfold stepsDown at *
  unfold stepsUp
  omega

theorem rotate_eq_body (h : Hex) (t : Int) : h.rotate t = rotateBody h (t % 6) := by
  rw [Hex.rotate, stepsNorm_eq]

/-! ## Rotation algebra -/

theorem rotateBody_comp (h : Hex) (ka kb : Int) (hka : 0 ≤ ka) (hka6 : ka < 6)
    (hkb : 0 ≤ kb) (hkb6 : kb < 6) :
    rotateBody (rotateBody h ka) kb = rotateBody h ((ka + kb) % 6) := by
  interval_cases ka <;> interval_cases kb <;> simp [rotateBody, Hex.neg]

/-- Claim C6 core: composition of rotations adds step counts mod 6. -/
theorem rotate_rotate (h : Hex) (a b : Int) : (h.rotate a).rotate b = h.rotate (a + b) := by
  rw [rotate_eq_body, rotate_eq_body, rotate_eq_body,
    rotateBody_comp h (a % 6) (b % 6) (by omega) (by omega) (by omega) (by omega)]
  congr 1
  omega

theorem rotate_zero (h : Hex) : h.rotate 0 = h := by
  rw [rotate_eq_body]; rfl

theorem rotate_six (h : Hex) : h.rotate 6 = h := by
  rw [rotate_eq_body]; rfl

theorem rotate_emod (h : Hex) (t : Int) : h.rotate (t % 6) = h.rotate t := by
  rw [rotate_eq_body, rotate_eq_body, Int.emod_emod_of_dvd]
  exact dvd_refl 6

theorem rotate_leftInverse (a : Int) (h : Hex) : (h.rotate a).rotate (6 - a) = h := by
  rw [rotate_rotate]; simp [rotate_six]

theorem rotate_injective (a : Int) : Function.Injective (fun h : Hex => h.rotate a) := by
  intro x y hxy
  have : (x.rotate a).rotate (6 - a) = (y.rotate a).rotate (6 - a) := by
    simpa using congrArg (fun z => Hex.rotate z (6 - a)) hxy
  rwa [rotate_leftInverse, rotate_leftInverse] at this

theorem rotateBody_add (a b : Hex) (k : Int) (h0 : 0 ≤ k) (h6 : k < 6) :
    rotateBody (a.add b) k = (rotateBody a k).add (rotateBody b k) := by
  interval_cases k <;> simp [rotateBody, Hex.add, Hex.neg] <;> omega

theorem rotateBody_mul (a : Hex) (m : Int) (k : Int) (h0 : 0 ≤ k) (h6 : k < 6) :
    rotateBody (a.mul m) k = (rotateBody a k).mul m := by
  interval_cases k <;> simp [rotateBody, Hex.mul, Hex.neg]

theorem rotate_add (a b : Hex) (t : Int) :
    (a.add b).rotate t = (a.rotate t).add (b.rotate t) := by
  rw [rotate_eq_body, rotate_eq_body, rotate_eq_body]
  exact rotateBody_add a b (t % 6) (by omega) (by omega)

theorem rotate_mul (a : Hex) (m t : Int) :
    (a.mul m).rotate t = (a.rotate t).mul m := by
  rw [rotate_eq_body, rotate_eq_body]
  exact rotateBody_mul a m (t % 6) (by omega) (by omega)

theorem rotate_neg (a : Hex) (t : Int) : (a.neg).rotate t = (a.rotate t).neg := by
  have h1 : a.neg = a.mul (-1) := by simp [Hex.neg, Hex.mul]
  have h2 : (a.rotate t).neg = (a.rotate t).mul (-1) := by simp [Hex.neg, Hex.mul]
  rw [h1, h2, rotate_mul]

theorem rotate_sub (a b : Hex) (t : Int) :
    (a.sub b).rotate t = (a.rotate t).sub (b.rotate t) := by
  rw [Hex.sub, Hex.sub, rotate_add, rotate_neg]

theorem rotateBody_ring (h : Hex) (k : Int) (h0 : 0 ≤ k) (h6 : k < 6) :
    (rotateBody h k).ring = h.ring := by
  interval_cases k <;> simp [rotateBody, Hex.ring, Hex.neg] <;> omega

theorem rotate_ring (h : Hex) (t : Int) : (h.rotate t).ring = h.ring := by
  rw [rotate_eq_body]
  exact rotateBody_ring h (t % 6) (by omega) (by omega)

theorem rotateBody_valid (h : Hex) (k : Int) (h0 : 0 ≤ k) (h6 : k < 6) (hv : h.valid) :
    (rotateBody h k).valid := by
  unfold Hex.valid at *
  interval_cases k <;> simp [rotateBody, Hex.neg] <;> omega

theorem rotate_valid (h : Hex) (t : Int) (hv : h.valid) : (h.rotate t).valid := by
  rw [rotate_eq_body]
  exact rotateBody_valid h (t % 6) (by omega) (by omega) hv

theorem rotate_origin (t : Int) : Hex.rotate ⟨0, 0, 0⟩ t = ⟨0, 0, 0⟩ := by
  rw [rotate_eq_body]
  have h0 : 0 ≤ t % 6 := by omega
  have h6 : t % 6 < 6 := by omega
  interval_cases h : t % 6 <;> simp [rotateBody, Hex.neg]

/-! ## Direction constants as literals -/

theorem UR_eq : UR = ⟨1, -1, 0⟩ := by decide

theorem DR_eq : DR = ⟨1, 0, -1⟩ := by decide

theorem DN_eq : DN = ⟨0, 1, -1⟩ := by decide

theorem DL_eq : DL = ⟨-1, 1, 0⟩ := by decide

theorem UL_eq : UL = ⟨-1, 0, 1⟩ := by decide

theorem rot3_UPlit : Hex.rotate ⟨0, -1, 1⟩ 3 = ⟨0, 1, -1⟩ := by decide

theorem rot3_URlit : Hex.rotate ⟨1, -1, 0⟩ 3 = ⟨-1, 1, 0⟩ := by decide

theorem rot3_DRlit : Hex.rotate ⟨1, 0, -1⟩ 3 = ⟨-1, 0, 1⟩ := by decide

/-! ## Sector analysis of `ring_index` -/

set_option maxHeartbeats 1000000 in
/-- Complete description of `ring_index` on valid, non-origin cells: the cell
lies in exactly one of the six sectors, its clockwise offset `d` within the
sector is below the ring number, the returned index is `sector * ring + d`,
and the cell's coordinates are recovered from `(sector, ring, d)`.  This is
simultaneously the reachability of the three classification branches, the
range bound and the injectivity data for `ring_index`. -/
theorem ringIndex_sector (h : Hex) (hv : h.valid) (hnz : ¬ h.isOrigin) :
    ∃ d : Nat, d < h.ring ∧
      ((h.ringIndex? = some (0 * h.ring + d) ∧ h.q = (d : Int) ∧ h.r = -(h.ring : Int) ∧
          h.s = (h.ring : Int) - d) ∨
       (h.ringIndex? = some (1 * h.ring + d) ∧ h.q = (h.ring : Int) ∧ h.r = (d : Int) - h.ring ∧
          h.s = -(d : Int)) ∨
       (h.ringIndex? = some (2 * h.ring + d) ∧ h.q = (h.ring : Int) - d ∧ h.r = (d : Int) ∧
          h.s = -(h.ring : Int)) ∨
       (h.ringIndex? = some (3 * h.ring + d) ∧ h.q = -(d : Int) ∧ h.r = (h.ring : Int) ∧
          h.s = (d : Int) - h.ring) ∨
       (h.ringIndex? = some (4 * h.ring + d) ∧ h.q = -(h.ring : Int) ∧
          h.r = (h.ring : Int) - d ∧ h.s = (d : Int)) ∨
       (h.ringIndex? = some (5 * h.ring + d) ∧ h.q = (d : Int) - h.ring ∧ h.r = -(d : Int) ∧
          h.s = (h.ring : Int))) := by
  obtain ⟨hq, hr, hs⟩ := h
  simp only [Hex.valid] at hv
  simp only [Hex.isOrigin] at hnz
  simp only [Hex.ringIndex?, Hex.isOrigin, Hex.ring, sectorIndex, Hex.sub, Hex.add, Hex.neg,
    Hex.mul, UP, rot3_UPlit, UR_eq, rot3_URlit, DR_eq, rot3_DRlit]
  split_ifs with hc0 hk0 hc1 hk1 hc2 hk2
  · -- sector 0, key r > 0: sector 3 (here ring = r and the offset is -q)
    refine ⟨(-hq).toNat, by omega, Or.inr (Or.inr (Or.inr (Or.inl
      ⟨congrArg some (by omega), by omega, by omega, by omega⟩)))⟩
  · -- sector 0, key r <= 0
    refine ⟨hq.toNat, by omega, Or.inl ⟨congrArg some (by omega), by omega, by omega, by omega⟩⟩
  · -- sector 1, key -q > 0: sector 4 (here ring = -q)
    refine ⟨(-hq - hr).toNat, by omega,
      Or.inr (Or.inr (Or.inr (Or.inr (Or.inl
        ⟨congrArg some (by omega), by omega, by omega, by omega⟩))))⟩
  · -- sector 1, key -q <= 0 (here ring = q)
    refine ⟨(hr + hq).toNat, by omega,
      Or.inr (Or.inl ⟨congrArg some (by omega), by omega, by omega, by omega⟩)⟩
  · -- sector 2, key s > 0: sector 5
    refine ⟨(-hr).toNat, by omega, Or.inr (Or.inr (Or.inr (Or.inr (Or.inr
      ⟨congrArg some (by omega), by omega, by omega, by omega⟩))))⟩
  · -- sector 2, key s <= 0
    refine ⟨hr.toNat, by omega,
      Or.inr (Or.inr (Or.inl ⟨congrArg some (by omega), by omega, by omega, by omega⟩))⟩
  · -- no sector matched: impossible for a valid non-origin cell
    exfalso; omega

/-- On valid cells `ring_index` never reaches the `raise` branch. -/
theorem ringIndex_some (h : Hex) (hv : h.valid) : h.ringIndex? = some h.ringIndex := by
  by_cases ho : h.isOrigin
  · simp [Hex.ringIndex, Hex.ringIndex?, ho]
  · obtain ⟨d, _, hc⟩ := ringIndex_sector h hv ho
    rcases hc with ⟨e, _⟩ | ⟨e, _⟩ | ⟨e, _⟩ | ⟨e, _⟩ | ⟨e, _⟩ | ⟨e, _⟩ <;>
      simp [Hex.ringIndex, e]

/-- Range of `ring_index` on valid non-origin cells. -/
theorem ringIndex_lt (h : Hex) (hv : h.valid) (hnz : ¬ h.isOrigin) :
    h.ringIndex < 6 * h.ring := by
  obtain ⟨d, hd, hc⟩ := ringIndex_sector h hv hnz
  rcases hc with ⟨e, _⟩ | ⟨e, _⟩ | ⟨e, _⟩ | ⟨e, _⟩ | ⟨e, _⟩ | ⟨e, _⟩ <;>
    (simp only [Hex.ringIndex, e, Option.getD_some]; omega)

/-- A valid cell of ring 0 is the origin. -/
theorem ring_zero_origin (h : Hex) (hv : h.valid) (h0 : h.ring = 0) : h = OR := by
  obtain ⟨hq, hr, hs⟩ := h
  simp only [Hex.valid] at hv
  simp only [Hex.ring] at h0
  simp only [OR, Hex.mk.injEq]
  omega

/-- `ring_index` is injective among valid cells on a common ring: together
with the range bound this makes it a bijection onto `[0, 6*ring)`, which is
what turns a ring signature into a faithful bitmask. -/
theorem ringIndex_injOn (a b : Hex) (hva : a.valid) (hvb : b.valid) (hrr : a.ring = b.ring)
    (hi : a.ringIndex = b.ringIndex) : a = b := by
  by_cases ha : a.isOrigin
  · by_cases hb : b.isOrigin
    · obtain ⟨aq, ar, az⟩ := a; obtain ⟨bq, br, bz⟩ := b
      simp only [Hex.isOrigin] at ha hb
      simp only [Hex.mk.injEq]; omega
    · exfalso
      obtain ⟨d, hd, _⟩ := ringIndex_sector b hvb hb
      obtain ⟨aq, ar, az⟩ := a
      simp only [Hex.isOrigin] at ha
      simp only [Hex.ring] at hrr hd
      omega
  · by_cases hb : b.isOrigin
    · exfalso
      obtain ⟨d, hd, _⟩ := ringIndex_sector a hva ha
      obtain ⟨bq, br, bz⟩ := b
      simp only [Hex.isOrigin] at hb
      simp only [Hex.ring] at hrr hd
      omega
    · obtain ⟨d1, hd1, hc1⟩ := ringIndex_sector a hva ha
      obtain ⟨d2, hd2, hc2⟩ := ringIndex_sector b hvb hb
      rcases hc1 with h1 | h1 | h1 | h1 | h1 | h1 <;> rcases hc2 with h2 | h2 | h2 | h2 | h2 | h2 <;>
        (obtain ⟨e1, q1, r1, s1⟩ := h1
         obtain ⟨e2, q2, r2, s2⟩ := h2
         simp only [Hex.ringIndex, e1, e2, Option.getD_some] at hi
         obtain ⟨aq, ar, az⟩ := a
         obtain ⟨bq, br, bz⟩ := b
         simp only [Hex.ring] at hi hrr q1 r1 s1 q2 r2 s2 hd1 hd2
         simp only [Hex.mk.injEq]
         omega)

/-! ## Sums of distinct powers of two determine the exponent set -/

theorem sum_range_two_pow (n : Nat) : (∑ i ∈ Finset.range n, 2 ^ i) + 1 = 2 ^ n := by
  induction n with
  | zero => simp
  | succ m ih => rw [Finset.sum_range_succ, pow_succ]; omega

/-- Binary representations are unique: equal sums of distinct powers of two
come from equal finite exponent sets. -/
theorem sum_two_pow_injective : ∀ (n : Nat) (A B : Finset Nat), A ⊆ Finset.range n →
    B ⊆ Finset.range n → (∑ i ∈ A, 2 ^ i) = (∑ i ∈ B, 2 ^ i) → A = B := by
  intro n
  induction n with
  | zero =>
    intro A B hA hB _
    simp only [Finset.range_zero, Finset.subset_empty] at hA hB
    rw [hA, hB]
  | succ m ih =>
    intro A B hA hB hsum
    have hbound : ∀ C : Finset Nat, C ⊆ Finset.range m → (∑ i ∈ C, 2 ^ i) < 2 ^ m := by
      intro C hC
      calc (∑ i ∈ C, 2 ^ i) ≤ ∑ i ∈ Finset.range m, 2 ^ i :=
            Finset.sum_le_sum_of_subset hC
        _ < 2 ^ m := by have := sum_range_two_pow m; omega
    have herase : ∀ C : Finset Nat, C ⊆ Finset.range (m + 1) →
        C.erase m ⊆ Finset.range m := by
      intro C hC x hx
      have hxm := Finset.ne_of_mem_erase hx
      have := hC (Finset.mem_of_mem_erase hx)
      simp only [Finset.mem_range] at this ⊢
      omega
    have hsplit : ∀ C : Finset Nat, C ⊆ Finset.range (m + 1) →
        (∑ i ∈ C, 2 ^ i) = (if m ∈ C then 2 ^ m else 0) + (∑ i ∈ C.erase m, 2 ^ i) := by
      intro C _
      by_cases hm : m ∈ C
      · rw [if_pos hm, ← Finset.sum_erase_add C _ hm]; omega
      · rw [if_neg hm, Finset.erase_eq_of_not_mem hm]; omega
    have hAe := hbound _ (herase A hA)
    have hBe := hbound _ (herase B hB)
    have hAs := hsplit A hA
    have hBs := hsplit B hB
    have hmem : m ∈ A ↔ m ∈ B := by
      constructor <;> intro hm
      · by_contra hmB
        rw [if_pos hm] at hAs; rw [if_neg hmB] at hBs
        omega
      · by_contra hmA
        rw [if_pos hm] at hBs; rw [if_neg hmA] at hAs
        omega
    have heq : A.erase m = B.erase m := by
      apply ih _ _ (herase A hA) (herase B hB)
      by_cases hm : m ∈ A
      · rw [if_pos hm] at hAs; rw [if_pos (hmem.mp hm)] at hBs; omega
      · rw [if_neg hm] at hAs; rw [if_neg (fun hc => hm (hmem.mpr hc))] at hBs; omega
    ext x
    by_cases hx : x = m
    · subst hx; exact hmem
    · constructor <;> intro hmm
      · exact Finset.mem_of_mem_erase (heq ▸ Finset.mem_erase_of_ne_of_mem hx hmm)
      · exact Finset.mem_of_mem_erase (heq ▸ Finset.mem_erase_of_ne_of_mem hx hmm)

/-- A positive-ring cell is not the origin. -/
theorem ring_pos_not_origin (h : Hex) (hρ : 0 < h.ring) : ¬ h.isOrigin := by
  intro ho
  obtain ⟨hq, hr, hs⟩ := h
  simp only [Hex.isOrigin] at ho
  simp only [Hex.ring] at hρ
  omega

/-- Equal ring signatures pin down the exact cell content of that ring:
`ring_sum` is the bitmask, over the `ring_index` bijection, of the cells on
the ring. -/
theorem ring_sum_determines (x y : Shape) (hvx : ∀ h ∈ x.hexes, h.valid)
    (hvy : ∀ h ∈ y.hexes, h.valid) (ρ : Nat) (hρ : 0 < ρ)
    (hsum : x.ring_sum ρ = y.ring_sum ρ) :
    x.hexes.filter (fun h => h.ring = ρ) = y.hexes.filter (fun h => h.ring = ρ) := by
  set fx := x.hexes.filter (fun h => h.ring = ρ) with hfx
  set fy := y.hexes.filter (fun h => h.ring = ρ) with hfy
  have hvfx : ∀ h ∈ fx, h.valid := fun h hh => hvx h (Finset.mem_of_mem_filter h hh)
  have hvfy : ∀ h ∈ fy, h.valid := fun h hh => hvy h (Finset.mem_of_mem_filter h hh)
  have hrfx : ∀ h ∈ fx, h.ring = ρ := by
    intro h hh; exact (Finset.mem_filter.mp hh).2
  have hrfy : ∀ h ∈ fy, h.ring = ρ := by
    intro h hh; exact (Finset.mem_filter.mp hh).2
  have hinjx : ∀ a ∈ fx, ∀ b ∈ fx, a.ringIndex = b.ringIndex → a = b := by
    intro a ha b hb hab
    exact ringIndex_injOn a b (hvfx a ha) (hvfx b hb) (by rw [hrfx a ha, hrfx b hb]) hab
  have hinjy : ∀ a ∈ fy, ∀ b ∈ fy, a.ringIndex = b.ringIndex → a = b := by
    intro a ha b hb hab
    exact ringIndex_injOn a b (hvfy a ha) (hvfy b hb) (by rw [hrfy a ha, hrfy b hb]) hab
  have hsub : ∀ (f : Finset Hex), (∀ h ∈ f, h.valid) → (∀ h ∈ f, h.ring = ρ) →
      f.image Hex.ringIndex ⊆ Finset.range (6 * ρ) := by
    intro f hvf hrf i hi
    obtain ⟨h, hh, hhi⟩ := Finset.mem_image.mp hi
    have hb := ringIndex_lt h (hvf h hh)
      (ring_pos_not_origin h (by rw [hrf h hh]; exact hρ))
    rw [hrf h hh] at hb
    simp only [Finset.mem_range]
    omega
  have hsx : (∑ i ∈ fx.image Hex.ringIndex, 2 ^ i) = x.ring_sum ρ := by
    rw [Finset.sum_image hinjx]; rfl
  have hsy : (∑ i ∈ fy.image Hex.ringIndex, 2 ^ i) = y.ring_sum ρ := by
    rw [Finset.sum_image hinjy]; rfl
  have himg : fx.image Hex.ringIndex = fy.image Hex.ringIndex := by
    apply sum_two_pow_injective (6 * ρ) _ _ (hsub fx hvfx hrfx) (hsub fy hvfy hrfy)
    rw [hsx, hsy, hsum]
  ext h
  constructor
  · intro hh
    have : h.ringIndex ∈ fy.image Hex.ringIndex := by
      rw [← himg]; exact Finset.mem_image_of_mem _ hh
    obtain ⟨g, hg, hgh⟩ := Finset.mem_image.mp this
    have : g = h := ringIndex_injOn g h (hvfy g hg) (hvfx h hh)
      (by rw [hrfy g hg, hrfx h hh]) hgh
    rwa [← this]
  · intro hh
    have : h.ringIndex ∈ fx.image Hex.ringIndex := by
      rw [himg]; exact Finset.mem_image_of_mem _ hh
    obtain ⟨g, hg, hgh⟩ := Finset.mem_image.mp this
    have : g = h := ringIndex_injOn g h (hvfx g hg) (hvfy h hh)
      (by rw [hrfx g hg, hrfy h hh]) hgh
    rwa [← this]

/-! ## Properties of the Python `min` over a non-empty list -/

theorem foldl_min_mem (xs : List Nat) : ∀ a : Nat, xs.foldl min a = a ∨ xs.foldl min a ∈ xs := by
  induction xs with
  | nil => intro a; left; rfl
  | cons x xs ih =>
    intro a
    rcases ih (min a x) with h | h
    · rcases Nat.le_total a x with hax | hax
      · rw [List.foldl_cons] at *
        left; rw [h]; omega
      · rw [List.foldl_cons] at *
        right
        have hmin : min a x = x := by omega
        rw [h, hmin]
        exact List.mem_cons_self x xs
    · right; right; exact h

theorem foldl_min_le (xs : List Nat) :
    ∀ a : Nat, xs.foldl min a ≤ a ∧ ∀ x ∈ xs, xs.foldl min a ≤ x := by
  induction xs with
  | nil => intro a; exact ⟨Nat.le_refl a, by simp⟩
  | cons x xs ih =>
    intro a
    have h := ih (min a x)
    rw [List.foldl_cons]
    refine ⟨by omega, ?_⟩
    intro z hz
    rcases List.mem_cons.mp hz with hzx | hzs
    · subst hzx; omega
    · exact h.2 z hzs

theorem listMinNat_mem (l : List Nat) (hne : l ≠ []) : listMinNat l ∈ l := by
  match l with
  | x :: xs =>
    simp only [listMinNat]
    rcases foldl_min_mem xs x with h | h
    · rw [h]; exact List.mem_cons_self x xs
    · exact List.mem_cons_of_mem x h

theorem listMinNat_le (l : List Nat) (x : Nat) (hx : x ∈ l) : listMinNat l ≤ x := by
  match l with
  | y :: ys =>
    simp only [listMinNat]
    have h := foldl_min_le ys y
    rcases List.mem_cons.mp hx with hxy | hxs
    · subst hxy; exact h.1
    · exact h.2 x hxs

theorem listMinNat_eq_of_perm (l₁ l₂ : List Nat) (hp : l₁.Perm l₂) :
    listMinNat l₁ = listMinNat l₂ := by
  match l₁, l₂ with
  | [], l₂ => rw [List.Perm.nil_eq hp]
  | x :: xs, [] => exact absurd (List.Perm.symm hp) (by simp)
  | x :: xs, y :: ys =>
    apply Nat.le_antisymm
    · exact listMinNat_le _ _ ((List.Perm.mem_iff hp).mpr (listMinNat_mem (y :: ys) (by simp)))
    · exact listMinNat_le _ _ ((List.Perm.mem_iff hp).mp (listMinNat_mem (x :: xs) (by simp)))

/-! ## The ring-disambiguation loop -/

theorem mem_normFilter (rots : List Shape) (ρ : Nat) (x : Shape) :
    x ∈ normFilter rots ρ ↔ x ∈ rots ∧
      x.ring_sum ρ = listMinNat (rots.map (fun r => r.ring_sum ρ)) := by
  unfold normFilter
  have hmap : (rots.map (fun r => (r, r.ring_sum ρ))).map Prod.snd =
      rots.map (fun r => r.ring_sum ρ) := by
    rw [List.map_map]; rfl
  rw [hmap]
  constructor
  · intro hx
    obtain ⟨p, hp, hpx⟩ := List.mem_map.mp hx
    obtain ⟨hpmem, hpq⟩ := List.mem_filter.mp hp
    obtain ⟨r, hr, hrp⟩ := List.mem_map.mp hpmem
    have hq : p.2 = listMinNat (rots.map (fun r => r.ring_sum ρ)) := by
      simpa using hpq
    subst hpx
    rw [← hrp] at hq ⊢
    exact ⟨hr, hq⟩
  · intro ⟨hx, hsum⟩
    apply List.mem_map.mpr
    refine ⟨(x, x.ring_sum ρ), List.mem_filter.mpr ⟨List.mem_map.mpr ⟨x, hx, rfl⟩, ?_⟩, rfl⟩
    simpa using hsum

theorem normFilter_perm (r₁ r₂ : List Shape) (hp : r₁.Perm r₂) (ρ : Nat) :
    (normFilter r₁ ρ).Perm (normFilter r₂ ρ) := by
  unfold normFilter
  have hmap : ∀ r : List Shape, (r.map (fun a => (a, a.ring_sum ρ))).map Prod.snd =
      r.map (fun a => a.ring_sum ρ) := by
    intro r; rw [List.map_map]; rfl
  rw [hmap, hmap, listMinNat_eq_of_perm _ _ (hp.map (fun a => a.ring_sum ρ))]
  exact ((hp.map (fun a => (a, a.ring_sum ρ))).filter _).map _

theorem normFilter_ne_nil (rots : List Shape) (ρ : Nat) (hne : rots ≠ []) :
    normFilter rots ρ ≠ [] := by
  match rots with
  | r :: rs =>
    have hmem : listMinNat ((r :: rs).map (fun a => a.ring_sum ρ)) ∈
        (r :: rs).map (fun a => a.ring_sum ρ) :=
      listMinNat_mem _ (by simp)
    obtain ⟨a, ha, hav⟩ := List.mem_map.mp hmem
    intro hempty
    have : a ∈ normFilter (r :: rs) ρ := (mem_normFilter _ _ _).mpr ⟨ha, hav⟩
    rw [hempty] at this
    exact absurd this (List.not_mem_nil a)

theorem normLoopAux_subset : ∀ (k : Nat) (rots : List Shape) (ρ : Nat),
    ∀ x ∈ normLoopAux rots ρ k, x ∈ rots := by
  intro k
  induction k with
  | zero => intro rots ρ x hx; exact hx
  | succ m ih =>
    intro rots ρ x hx
    rw [normLoopAux] at hx
    by_cases hl : (normFilter rots ρ).length = 1
    · rw [if_pos hl] at hx
      exact ((mem_normFilter _ _ _).mp hx).1
    · rw [if_neg hl] at hx
      exact ((mem_normFilter _ _ _).mp (ih _ _ x hx)).1

theorem normLoopAux_ne_nil : ∀ (k : Nat) (rots : List Shape) (ρ : Nat), rots ≠ [] →
    normLoopAux rots ρ k ≠ [] := by
  intro k
  induction k with
  | zero => intro rots ρ h; exact h
  | succ m ih =>
    intro rots ρ h
    rw [normLoopAux]
    by_cases hl : (normFilter rots ρ).length = 1
    · rw [if_pos hl]; exact normFilter_ne_nil rots ρ h
    · rw [if_neg hl]; exact ih _ _ (normFilter_ne_nil rots ρ h)

theorem normLoopAux_perm : ∀ (k : Nat) (r₁ r₂ : List Shape) (ρ : Nat), r₁.Perm r₂ →
    (normLoopAux r₁ ρ k).Perm (normLoopAux r₂ ρ k) := by
  intro k
  induction k with
  | zero => intro r₁ r₂ ρ hp; exact hp
  | succ m ih =>
    intro r₁ r₂ ρ hp
    have hfp := normFilter_perm r₁ r₂ hp ρ
    have hlen := hfp.length_eq
    rw [normLoopAux, normLoopAux]
    by_cases hl : (normFilter r₁ ρ).length = 1
    · rw [if_pos hl, if_pos (hlen ▸ hl)]
      exact hfp
    · rw [if_neg hl, if_neg (fun hc => hl (by omega))]
      exact ih _ _ _ hfp

theorem normLoopAux_sums : ∀ (k : Nat) (rots : List Shape) (ρ : Nat),
    ∀ x ∈ normLoopAux rots ρ k, ∀ y ∈ normLoopAux rots ρ k,
      (normLoopAux rots ρ k).length = 1 ∨
      ∀ ρ', ρ ≤ ρ' → ρ' < ρ + k → x.ring_sum ρ' = y.ring_sum ρ' := by
  intro k
  induction k with
  | zero =>
    intro rots ρ x _ y _
    right; intro ρ' h1 h2; omega
  | succ m ih =>
    intro rots ρ x hx y hy
    rw [normLoopAux] at hx hy ⊢
    by_cases hl : (normFilter rots ρ).length = 1
    · rw [if_pos hl] at hx hy ⊢
      left; exact hl
    · rw [if_neg hl] at hx hy ⊢
      rcases ih (normFilter rots ρ) (ρ + 1) x hx y hy with h | h
      · left; exact h
      · right
        intro ρ' h1 h2
        by_cases hρ : ρ' = ρ
        · subst hρ
          have hxm := (mem_normFilter _ _ _).mp (normLoopAux_subset m _ _ x hx)
          have hym := (mem_normFilter _ _ _).mp (normLoopAux_subset m _ _ y hy)
          rw [hxm.2, hym.2]
        · exact h ρ' (by omega) (by omega)

/-! ## Shape-level algebra -/

theorem Shape.ext_hexes (x y : Shape) (h : x.hexes = y.hexes) : x = y := by
  cases x; cases y; simpa using h

theorem hex_add_injective (t : Hex) : Function.Injective (fun n : Hex => n.add t) := by
  intro a b hab
  obtain ⟨aq, ar, az⟩ := a; obtain ⟨bq, br, bz⟩ := b
  simp only [Hex.add, Hex.mk.injEq] at hab ⊢
  omega

theorem hex_mul_injective (f : Int) (hf : f ≠ 0) : Function.Injective (fun n : Hex => n.mul f) := by
  intro a b hab
  obtain ⟨aq, ar, az⟩ := a; obtain ⟨bq, br, bz⟩ := b
  simp only [Hex.mul, Hex.mk.injEq] at hab ⊢
  refine ⟨?_, ?_, ?_⟩ <;> [have := hab.1; have := hab.2.1; have := hab.2.2] <;>
    exact mul_right_cancel₀ hf this

theorem shape_rotate_rotate (s : Shape) (a b : Int) :
    (s.rotate a).rotate b = s.rotate (a + b) := by
  unfold Shape.rotate
  congr 1
  rw [Finset.image_image]
  exact Finset.image_congr (fun x _ => rotate_rotate x a b)

theorem shape_rotate_emod (s : Shape) (t : Int) : s.rotate (t % 6) = s.rotate t := by
  unfold Shape.rotate
  congr 1
  exact Finset.image_congr (fun x _ => rotate_emod x t)

theorem card_shape_rotate (s : Shape) (t : Int) : (s.rotate t).hexes.card = s.hexes.card :=
  Finset.card_image_of_injective _ (rotate_injective t)

theorem card_shape_translate (s : Shape) (t : Hex) :
    (s.translate t).hexes.card = s.hexes.card :=
  Finset.card_image_of_injective _ (hex_add_injective t)

theorem card_scale_up (s : Shape) (f : Int) (hf : f ≠ 0) :
    (s.scale_up f).hexes.card = s.hexes.card :=
  Finset.card_image_of_injective _ (hex_mul_injective f hf)

theorem shape_sum_valid (s : Shape) (hv : ∀ h ∈ s.hexes, h.valid) : s.sum.valid := by
  unfold Shape.sum Hex.valid
  rw [← Finset.sum_add_distrib, ← Finset.sum_add_distrib]
  rw [Finset.sum_eq_zero]
  intro h hh
  exact hv h hh

theorem shape_sum_rotate (s : Shape) (t : Int) : (s.rotate t).sum = s.sum.rotate t := by
  have himg : ∀ g : Hex → Int,
      (∑ h ∈ (s.rotate t).hexes, g h) = ∑ h ∈ s.hexes, g (h.rotate t) := by
    intro g
    unfold Shape.rotate
    exact Finset.sum_image (fun x _ y _ hxy => rotate_injective t hxy)
  show (⟨∑ h ∈ (s.rotate t).hexes, h.q, ∑ h ∈ (s.rotate t).hexes, h.r,
      ∑ h ∈ (s.rotate t).hexes, h.s⟩ : Hex) = s.sum.rotate t
  rw [himg Hex.q, himg Hex.r, himg Hex.s]
  rw [rotate_eq_body]
  simp only [rotate_eq_body]
  have h0 : 0 ≤ t % 6 := by omega
  have h6 : t % 6 < 6 := by omega
  generalize t % 6 = k at *
  unfold Shape.sum
  interval_cases k <;>
    simp [rotateBody, Hex.neg, Finset.sum_neg_distrib, Hex.mk.injEq]

theorem shape_sum_scale_up (s : Shape) (f : Int) (hf : f ≠ 0) :
    (s.scale_up f).sum = s.sum.mul f := by
  have himg : ∀ g : Hex → Int,
      (∑ h ∈ (s.scale_up f).hexes, g h) = ∑ h ∈ s.hexes, g (h.mul f) := by
    intro g
    unfold Shape.scale_up
    exact Finset.sum_image (fun x _ y _ hxy => hex_mul_injective f hf hxy)
  show (⟨∑ h ∈ (s.scale_up f).hexes, h.q, ∑ h ∈ (s.scale_up f).hexes, h.r,
      ∑ h ∈ (s.scale_up f).hexes, h.s⟩ : Hex) = s.sum.mul f
  rw [himg Hex.q, himg Hex.r, himg Hex.s]
  unfold Shape.sum Hex.mul
  simp [← Finset.sum_mul]

theorem shape_sum_translate (s : Shape) (t : Hex) :
    (s.translate t).sum = s.sum.add (t.mul (s.hexes.card : Int)) := by
  have himg : ∀ g : Hex → Int,
      (∑ h ∈ (s.translate t).hexes, g h) = ∑ h ∈ s.hexes, g (h.add t) := by
    intro g
    unfold Shape.translate
    exact Finset.sum_image (fun x _ y _ hxy => hex_add_injective t hxy)
  show (⟨∑ h ∈ (s.translate t).hexes, h.q, ∑ h ∈ (s.translate t).hexes, h.r,
      ∑ h ∈ (s.translate t).hexes, h.s⟩ : Hex) = s.sum.add (t.mul (s.hexes.card : Int))
  rw [himg Hex.q, himg Hex.r, himg Hex.s]
  unfold Shape.sum Hex.add Hex.mul
  simp only [Finset.sum_add_distrib, Finset.sum_const, nsmul_eq_mul, Hex.mk.injEq]
  refine ⟨by ring, by ring, by ring⟩

theorem mean_scale_up (s : Shape) (hne : s.hexes ≠ ∅) :
    (s.scale_up (s.hexes.card : Int)).mean = s.sum := by
  have hcard : (s.hexes.card : Int) ≠ 0 := by
    simp only [ne_eq, Nat.cast_eq_zero, Finset.card_eq_zero]
    exact hne
  unfold Shape.mean
  rw [card_scale_up s _ hcard, shape_sum_scale_up s _ hcard]
  unfold Hex.mul Hex.floordiv
  obtain ⟨a, b, c⟩ := s.sum
  simp only [Hex.mk.injEq]
  refine ⟨?_, ?_, ?_⟩ <;> rw [mul_comm, Int.mul_fdiv_cancel_left _ hcard]

/-- Steps 1–2 of `normalize` concretely: every centered cell is
`N·h - sum(s)` for a unique original cell `h`. -/
theorem centered_eq (s : Shape) (hne : s.hexes ≠ ∅) :
    s.centered.hexes =
      s.hexes.image (fun h => (h.mul (s.hexes.card : Int)).add s.sum.neg) := by
  conv_lhs => rw [Shape.centered]
  rw [mean_scale_up s hne]
  unfold Shape.translate Shape.scale_up
  rw [Finset.image_image]
  rfl

/-- Centering is invariant under translating the input: the `N·h - sum`
offsets cancel the translation exactly. -/
theorem centered_translate (s : Shape) (u : Hex) : (s.translate u).centered = s.centered := by
  by_cases hne : s.hexes = ∅
  · apply Shape.ext_hexes
    simp [Shape.centered, Shape.scale_up, Shape.translate, hne]
  · have hne' : (s.translate u).hexes ≠ ∅ := by
      unfold Shape.translate
      simp only [ne_eq, Finset.image_eq_empty]
      exact hne
    apply Shape.ext_hexes
    rw [centered_eq _ hne', centered_eq s hne, card_shape_translate, shape_sum_translate]
    unfold Shape.translate
    rw [Finset.image_image]
    apply Finset.image_congr
    intro x _
    obtain ⟨xq, xr, xz⟩ := x
    obtain ⟨uq, ur, uz⟩ := u
    obtain ⟨aq, ar, az⟩ := s.sum
    simp only [Function.comp_apply, Hex.add, Hex.mul, Hex.neg, Hex.mk.injEq]
    refine ⟨by ring, by ring, by ring⟩

/-- Centering commutes with rotating the input. -/
theorem centered_rotate (s : Shape) (k : Int) : (s.rotate k).centered = s.centered.rotate k := by
  by_cases hne : s.hexes = ∅
  · apply Shape.ext_hexes
    simp [Shape.centered, Shape.scale_up, Shape.translate, Shape.rotate, hne]
  · have hne' : (s.rotate k).hexes ≠ ∅ := by
      unfold Shape.rotate
      simp only [ne_eq, Finset.image_eq_empty]
      exact hne
    apply Shape.ext_hexes
    rw [centered_eq _ hne', card_shape_rotate, shape_sum_rotate]
    unfold Shape.rotate
    rw [centered_eq s hne, Finset.image_image, Finset.image_image]
    apply Finset.image_congr
    intro x _
    simp only [Function.comp_apply]
    rw [rotate_add, rotate_mul, rotate_neg]

theorem outerRing_rotate (s : Shape) (k : Int) : (s.rotate k).outerRing = s.outerRing := by
  unfold Shape.outerRing Shape.rotate
  rw [Finset.sup_image]
  exact Finset.sup_congr rfl (fun h _ => rotate_ring h k)

theorem ring_le_outerRing (s : Shape) (h : Hex) (hh : h ∈ s.hexes) : h.ring ≤ s.outerRing :=
  Finset.le_sup hh

theorem mem_rotate_ring_le (c : Shape) (i : Int) (g : Hex) (hg : g ∈ (c.rotate i).hexes) :
    g.ring ≤ c.outerRing := by
  unfold Shape.rotate at hg
  obtain ⟨h, hh, rfl⟩ := Finset.mem_image.mp hg
  rw [rotate_ring]
  exact ring_le_outerRing c h hh

theorem mem_rotate_valid (c : Shape) (i : Int) (hv : ∀ h ∈ c.hexes, h.valid) :
    ∀ g ∈ (c.rotate i).hexes, g.valid := by
  intro g hg
  unfold Shape.rotate at hg
  obtain ⟨h, hh, rfl⟩ := Finset.mem_image.mp hg
  exact rotate_valid h i (hv h hh)

theorem origin_mem_rotate (c : Shape) (i : Int) :
    (⟨0, 0, 0⟩ : Hex) ∈ (c.rotate i).hexes ↔ (⟨0, 0, 0⟩ : Hex) ∈ c.hexes := by
  unfold Shape.rotate
  constructor
  · intro hg
    obtain ⟨h, hh, hrot⟩ := Finset.mem_image.mp hg
    have : h = ⟨0, 0, 0⟩ := by
      apply rotate_injective i
      show h.rotate i = Hex.rotate ⟨0, 0, 0⟩ i
      rw [hrot, rotate_origin]
    rwa [this] at hh
  · intro hg
    apply Finset.mem_image.mpr
    exact ⟨⟨0, 0, 0⟩, hg, rotate_origin i⟩

/-- The consistency check `assert r == rotations[0]` of `normalize`, in its
general form: two rotations of a centered shape with equal ring signatures
on every ring up to the outer ring are the same shape. -/
theorem rotations_eq_of_ring_sums (c : Shape) (hvc : ∀ h ∈ c.hexes, h.valid) (i j : Int)
    (hsums : ∀ ρ : Nat, 1 ≤ ρ → ρ ≤ c.outerRing →
      (c.rotate i).ring_sum ρ = (c.rotate j).ring_sum ρ) :
    c.rotate i = c.rotate j := by
  apply Shape.ext_hexes
  ext g
  by_cases hval : g.valid
  · rcases Nat.lt_or_ge c.outerRing g.ring with houter | houter
    · -- beyond the outer ring there are no cells on either side
      constructor <;> intro hg
      · exact absurd (mem_rotate_ring_le c i g hg) (by omega)
      · exact absurd (mem_rotate_ring_le c j g hg) (by omega)
    · rcases Nat.eq_zero_or_pos g.ring with hzero | hpos
      · -- ring 0: the cell is the origin, fixed by every rotation
        rw [ring_zero_origin g hval hzero]
        show (⟨0, 0, 0⟩ : Hex) ∈ (c.rotate i).hexes ↔ (⟨0, 0, 0⟩ : Hex) ∈ (c.rotate j).hexes
        rw [origin_mem_rotate, origin_mem_rotate]
      · -- 1 ≤ ring g ≤ outer: the ring signature pins down membership
        have hdet := ring_sum_determines (c.rotate i) (c.rotate j)
          (mem_rotate_valid c i hvc) (mem_rotate_valid c j hvc) g.ring hpos
          (hsums g.ring hpos houter)
        constructor <;> intro hg
        · have : g ∈ (c.rotate i).hexes.filter (fun h => h.ring = g.ring) :=
            Finset.mem_filter.mpr ⟨hg, rfl⟩
          rw [hdet] at this
          exact (Finset.mem_filter.mp this).1
        · have : g ∈ (c.rotate j).hexes.filter (fun h => h.ring = g.ring) :=
            Finset.mem_filter.mpr ⟨hg, rfl⟩
          rw [← hdet] at this
          exact (Finset.mem_filter.mp this).1
  · constructor <;> intro hg
    · exact absurd (mem_rotate_valid c i hvc g hg) hval
    · exact absurd (mem_rotate_valid c j hvc g hg) hval

/-! ## The canonical rotation choice -/

theorem headD_mem {α : Type} (l : List α) (d : α) (hne : l ≠ []) : l.headD d ∈ l := by
  cases l with
  | nil => exact absurd rfl hne
  | cons x xs => exact List.mem_cons_self x xs

theorem survivors_def (s : Shape) : s.survivors =
    normLoopAux ((List.range 6).map (fun i : Nat => s.centered.rotate (i : Int))) 1
      s.centered.outerRing := rfl

theorem survivors_ne_nil (s : Shape) : s.survivors ≠ [] := by
  rw [survivors_def]
  apply normLoopAux_ne_nil
  simp only [ne_eq, List.map_eq_nil_iff, List.range_eq_nil]
  omega

theorem mem_survivors_rotation (s : Shape) (x : Shape) (hx : x ∈ s.survivors) :
    ∃ i : Nat, i < 6 ∧ x = s.centered.rotate (i : Int) := by
  rw [survivors_def] at hx
  have hmem := normLoopAux_subset _ _ _ x hx
  obtain ⟨i, hi, hix⟩ := List.mem_map.mp hmem
  exact ⟨i, List.mem_range.mp hi, hix.symm⟩

theorem centered_valid (s : Shape) (hv : ∀ h ∈ s.hexes, h.valid) :
    ∀ g ∈ s.centered.hexes, g.valid := by
  by_cases hne : s.hexes = ∅
  · intro g hg
    exfalso
    simp [Shape.centered, Shape.scale_up, Shape.translate, hne] at hg
  · intro g hg
    rw [centered_eq s hne] at hg
    obtain ⟨h, hh, rfl⟩ := Finset.mem_image.mp hg
    have h1 := hv h hh
    have h2 := shape_sum_valid s hv
    unfold Hex.valid at *
    unfold Hex.add Hex.mul Hex.neg
    simp only
    linear_combination (s.hexes.card : Int) * h1 - h2

/-- The `assert` in `normalize`'s rotational-symmetry branch, and more: all
surviving rotations are equal as shapes. -/
theorem survivors_pairwise (s : Shape) (hv : ∀ h ∈ s.hexes, h.valid) :
    ∀ x ∈ s.survivors, ∀ y ∈ s.survivors, x = y := by
  intro x hx y hy
  have hx' := hx
  have hy' := hy
  rw [survivors_def] at hx' hy'
  rcases normLoopAux_sums _ _ _ x hx' y hy' with hlen | hsums
  · obtain ⟨a, ha⟩ := List.length_eq_one.mp hlen
    rw [survivors_def] at hx hy
    rw [ha] at hx' hy'
    simp only [List.mem_singleton] at hx' hy'
    rw [hx', hy']
  · obtain ⟨i, _, rfl⟩ := mem_survivors_rotation s x hx
    obtain ⟨j, _, rfl⟩ := mem_survivors_rotation s y hy
    exact rotations_eq_of_ring_sums s.centered (centered_valid s hv) _ _
      (fun ρ h1 h2 => hsums ρ h1 (by omega))

theorem survivors_rotate_perm (s : Shape) (k : Int) :
    ((s.rotate k).survivors).Perm s.survivors := by
  rw [survivors_def, survivors_def, centered_rotate, outerRing_rotate]
  apply normLoopAux_perm
  have hκ : (k % 6).toNat < 6 := by omega
  have hmapeq : (List.range 6).map (fun i : Nat => (s.centered.rotate k).rotate (i : Int)) =
      ((List.range 6).map (fun i : Nat => (((k % 6).toNat + i) % 6))).map
        (fun n : Nat => s.centered.rotate (n : Int)) := by
    rw [List.map_map]
    apply List.map_congr_left
    intro i _
    show (s.centered.rotate k).rotate (i : Int) =
      s.centered.rotate ((((k % 6).toNat + i) % 6 : Nat) : Int)
    rw [shape_rotate_rotate, ← shape_rotate_emod s.centered (k + (i : Int))]
    congr 1
    omega
  rw [hmapeq]
  apply List.Perm.map
  generalize (k % 6).toNat = κ at hκ
  interval_cases κ <;> decide

theorem survivors_translate (s : Shape) (u : Hex) : (s.translate u).survivors = s.survivors := by
  rw [survivors_def, survivors_def, centered_translate]

/-! ## Normalization invariance -/

/-- Claim C1 (rotation part): normalize is invariant under any rotation of
its input. -/
theorem normalize_rotate (s : Shape) (hv : ∀ h ∈ s.hexes, h.valid) (k : Int) :
    (s.rotate k).normalize = s.normalize := by
  by_cases hne : s.hexes = ∅
  · have h1 : (s.rotate k).hexes = ∅ := by simp [Shape.rotate, hne]
    unfold Shape.normalize
    rw [if_pos h1, if_pos hne]
    exact Shape.ext_hexes _ _ (by rw [h1, hne])
  · have h1 : ¬ (s.rotate k).hexes = ∅ := by
      simp only [Shape.rotate, Finset.image_eq_empty]
      exact hne
    have hchosen : (s.rotate k).normChosen = s.normChosen := by
      have hperm := survivors_rotate_perm s k
      have hmem1 : (s.rotate k).normChosen ∈ (s.rotate k).survivors :=
        headD_mem _ _ (survivors_ne_nil _)
      have hmem2 : s.normChosen ∈ s.survivors := headD_mem _ _ (survivors_ne_nil _)
      exact survivors_pairwise s hv _ (hperm.mem_iff.mp hmem1) _ hmem2
    unfold Shape.normalize
    rw [if_neg h1, if_neg hne]
    unfold Shape.normPre
    rw [hchosen, card_shape_rotate]

/-- Claim C1 (translation part): normalize is invariant under any
translation of its input (no validity needed: the centered shape is
literally identical). -/
theorem normalize_translate (s : Shape) (u : Hex) :
    (s.translate u).normalize = s.normalize := by
  by_cases hne : s.hexes = ∅
  · have h1 : (s.translate u).hexes = ∅ := by simp [Shape.translate, hne]
    unfold Shape.normalize
    rw [if_pos h1, if_pos hne]
    exact Shape.ext_hexes _ _ (by rw [h1, hne])
  · have h1 : ¬ (s.translate u).hexes = ∅ := by
      simp only [Shape.translate, Finset.image_eq_empty]
      exact hne
    have hchosen : (s.translate u).normChosen = s.normChosen := by
      unfold Shape.normChosen
      rw [survivors_translate, centered_translate]
    unfold Shape.normalize
    rw [if_neg h1, if_neg hne]
    unfold Shape.normPre
    rw [hchosen, card_shape_translate]

/-! ## The sorted cell list and the least cell -/

theorem insertLe_perm {α : Type} (le : α → α → Bool) (x : α) :
    ∀ l : List α, (insertLe le x l).Perm (x :: l) := by
  intro l
  induction l with
  | nil => simp [insertLe]
  | cons y ys ih =>
    by_cases hxy : le x y
    · simp [insertLe, hxy]
    · have h : insertLe le x (y :: ys) = y :: insertLe le x ys := by
        simp [insertLe, hxy]
      rw [h]
      exact (List.Perm.cons y ih).trans (List.Perm.swap x y ys)

theorem sortHexes_coe (m : Multiset Hex) : (↑(sortHexes m) : Multiset Hex) = m := by
  induction m using Multiset.induction_on with
  | empty => rfl
  | cons a m ih =>
    unfold sortHexes at ih ⊢
    rw [Multiset.foldr_cons]
    calc (↑(insertLe hexLeB a (Multiset.foldr (insertLe hexLeB) [] m)) : Multiset Hex)
        = ↑(a :: Multiset.foldr (insertLe hexLeB) [] m) :=
          Multiset.coe_eq_coe.mpr (insertLe_perm hexLeB a _)
      _ = a ::ₘ ↑(Multiset.foldr (insertLe hexLeB) [] m) := by rw [Multiset.cons_coe]
      _ = a ::ₘ m := by rw [ih]

theorem sortHexes_ne_nil (m : Multiset Hex) (hm : m ≠ 0) : sortHexes m ≠ [] := by
  intro hc
  apply hm
  rw [← sortHexes_coe m, hc]
  rfl

theorem minHex_mem (x : Shape) (hne : x.hexes ≠ ∅) : x.minHex ∈ x.hexes := by
  unfold Shape.minHex
  have hvne : x.hexes.val ≠ 0 := by
    intro hc
    exact hne (Finset.val_eq_zero.mp hc)
  have hmem := headD_mem (sortHexes x.hexes.val) OR (sortHexes_ne_nil _ hvne)
  have hmem2 : (sortHexes x.hexes.val).headD OR ∈ (↑(sortHexes x.hexes.val) : Multiset Hex) :=
    Multiset.mem_coe.mpr hmem
  rw [sortHexes_coe] at hmem2
  exact hmem2

/-! ## The canonical form is a rotation plus a translation of the input -/

theorem normChosen_cells (s : Shape) (hne : s.hexes ≠ ∅) (i : Nat)
    (hchosen : s.normChosen = s.centered.rotate (i : Int)) :
    s.normChosen.hexes = s.hexes.image
      (fun h => ((h.rotate (i : Int)).mul (s.hexes.card : Int)).add
        ((s.sum.rotate (i : Int)).neg)) := by
  rw [hchosen]
  show (Shape.rotate _ _).hexes = _
  unfold Shape.rotate
  rw [centered_eq s hne, Finset.image_image]
  apply Finset.image_congr
  intro x _
  simp only [Function.comp_apply]
  rw [rotate_add, rotate_mul, rotate_neg]

/-- Before the final rescale, every cell of the chosen-and-retranslated
shape is `N · (h.rotate i - g.rotate i)` where `g` is the cell whose image
is the least cell: all coordinates are exact multiples of the cell count. -/
theorem normPre_eq (s : Shape) (hne : s.hexes ≠ ∅) :
    ∃ (i : Nat) (g : Hex), i < 6 ∧ g ∈ s.hexes ∧
      s.normPre.hexes = s.hexes.image
        (fun h => ((h.rotate (i : Int)).sub (g.rotate (i : Int))).mul (s.hexes.card : Int)) := by
  obtain ⟨i, hi6, hchosen⟩ :=
    mem_survivors_rotation s s.normChosen (headD_mem _ _ (survivors_ne_nil s))
  have hcells := normChosen_cells s hne i hchosen
  have hm := minHex_mem s.normChosen (by
    rw [hcells]
    simp only [ne_eq, Finset.image_eq_empty]
    exact hne)
  rw [hcells] at hm
  obtain ⟨g, hg, hgm⟩ := Finset.mem_image.mp hm
  refine ⟨i, g, hi6, hg, ?_⟩
  unfold Shape.normPre Shape.translate
  rw [hcells, Finset.image_image]
  apply Finset.image_congr
  intro x _
  simp only [Function.comp_apply]
  rw [← hgm]
  simp only [Hex.sub, Hex.add, Hex.neg, Hex.mul, Hex.mk.injEq]
  refine ⟨by ring, by ring, by ring⟩

/-- The canonical form of a non-empty shape is a rotation of the input
followed by a translation: the final floor division divides out exactly. -/
theorem normalize_eq_rotate_translate (s : Shape) (hne : s.hexes ≠ ∅) :
    ∃ (i : Nat) (g : Hex), i < 6 ∧ g ∈ s.hexes ∧
      s.normalize = (s.rotate (i : Int)).translate ((g.rotate (i : Int)).neg) := by
  obtain ⟨i, g, hi, hg, hpre⟩ := normPre_eq s hne
  have hNz : (s.hexes.card : Int) ≠ 0 := by
    simp only [ne_eq, Nat.cast_eq_zero, Finset.card_eq_zero]
    exact hne
  refine ⟨i, g, hi, hg, ?_⟩
  unfold Shape.normalize
  rw [if_neg hne]
  apply Shape.ext_hexes
  show (Shape.scale_down _ _).hexes = (Shape.translate _ _).hexes
  unfold Shape.scale_down
  rw [hpre, Finset.image_image]
  unfold Shape.translate Shape.rotate
  rw [Finset.image_image]
  apply Finset.image_congr
  intro x _
  simp only [Function.comp_apply]
  simp only [Hex.sub, Hex.add, Hex.neg, Hex.mul, Hex.floordiv, Hex.mk.injEq]
  refine ⟨?_, ?_, ?_⟩ <;> exact Int.mul_fdiv_cancel _ hNz

theorem normalize_empty (s : Shape) (hne : s.hexes = ∅) : s.normalize = s := by
  unfold Shape.normalize; rw [if_pos hne]

/-- Claim C2 core: normalize is idempotent. -/
theorem shape_normalize_idem (s : Shape) (hv : ∀ h ∈ s.hexes, h.valid) :
    s.normalize.normalize = s.normalize := by
  by_cases hne : s.hexes = ∅
  · rw [normalize_empty s hne, normalize_empty s hne]
  · obtain ⟨i, g, _, _, hdec⟩ := normalize_eq_rotate_translate s hne
    rw [hdec, normalize_translate, normalize_rotate s hv, ← hdec]

/-- Claim C8 part: all canonical cells are valid integer triples. -/
theorem normalize_valid (s : Shape) (hv : ∀ h ∈ s.hexes, h.valid) :
    ∀ h ∈ s.normalize.hexes, h.valid := by
  by_cases hne : s.hexes = ∅
  · rw [normalize_empty s hne]; exact hv
  · obtain ⟨i, g, _, hg, hdec⟩ := normalize_eq_rotate_translate s hne
    rw [hdec]
    intro h hh
    unfold Shape.translate Shape.rotate at hh
    rw [Finset.image_image] at hh
    obtain ⟨x, hx, rfl⟩ := Finset.mem_image.mp hh
    have h1 := rotate_valid x (i : Int) (hv x hx)
    have h2 := rotate_valid g (i : Int) (hv g hg)
    unfold Hex.valid at *
    simp only [Function.comp_apply, Hex.add, Hex.neg]
    omega

/-- Claim C8 part: after the final translation every coordinate is an exact
multiple of the cell count, so the closing floor division loses nothing. -/
theorem normPre_div (s : Shape) (hne : s.hexes ≠ ∅) :
    ∀ h ∈ s.normPre.hexes, (s.hexes.card : Int) ∣ h.q ∧
      (s.hexes.card : Int) ∣ h.r ∧ (s.hexes.card : Int) ∣ h.s := by
  obtain ⟨i, g, _, _, hpre⟩ := normPre_eq s hne
  rw [hpre]
  intro h hh
  obtain ⟨x, _, rfl⟩ := Finset.mem_image.mp hh
  simp only [Hex.mul]
  exact ⟨dvd_mul_left _ _, dvd_mul_left _ _, dvd_mul_left _ _⟩

/-- Claim C8 part: the sum of the scaled-up shape is componentwise
divisible by the cell count, so the vector mean is exact. -/
theorem scaled_sum_div (s : Shape) (hne : s.hexes ≠ ∅) :
    (s.hexes.card : Int) ∣ (s.scale_up (s.hexes.card : Int)).sum.q ∧
      (s.hexes.card : Int) ∣ (s.scale_up (s.hexes.card : Int)).sum.r ∧
      (s.hexes.card : Int) ∣ (s.scale_up (s.hexes.card : Int)).sum.s := by
  have hNz : (s.hexes.card : Int) ≠ 0 := by
    simp only [ne_eq, Nat.cast_eq_zero, Finset.card_eq_zero]
    exact hne
  rw [shape_sum_scale_up s _ hNz]
  simp only [Hex.mul]
  exact ⟨dvd_mul_left _ _, dvd_mul_left _ _, dvd_mul_left _ _⟩

/-! ## Termination and totality of `min_shape_distance` -/

theorem shape_distance_some (s1 s2 : Shape) (hcard : s1.hexes.card = s2.hexes.card) :
    ∃ v, shape_distance? s1 s2 = some v := by
  unfold shape_distance?
  rw [if_pos hcard]
  exact ⟨_, rfl⟩

theorem shape_distance_none (s1 s2 : Shape) (hcard : s1.hexes.card ≠ s2.hexes.card) :
    shape_distance? s1 s2 = none := by
  unfold shape_distance?
  rw [if_neg hcard]

theorem bestTrans_isSome (s2 : Shape) (cs : List Shape)
    (hall : ∀ c ∈ cs, ∃ v, shape_distance? c s2 = some v) :
    ∀ d t, ∃ md mt, bestTrans s2 cs d t = some (md, mt) := by
  induction cs with
  | nil => intro d t; exact ⟨d, t, rfl⟩
  | cons c cs ih =>
    intro d t
    obtain ⟨v, hv⟩ := hall c (List.mem_cons_self c cs)
    have ih' := ih (fun x hx => hall x (List.mem_cons_of_mem c hx))
    rw [bestTrans, hv]
    dsimp only
    by_cases hlt : v < d
    · rw [if_pos hlt]; exact ih' v c
    · rw [if_neg hlt]; exact ih' d t

/-- Claim C10 core: on equal-size shapes `min_shape_distance` terminates
with a value — the recursion is well-founded because each recursive call
strictly decreases `shape_distance`, and no assertion fires along the way. -/
theorem min_shape_distance_isSome :
    ∀ (n : Nat) (s1 s2 : Shape), s1.hexes.card = s2.hexes.card →
      (shape_distance? s1 s2).getD 0 ≤ n → (min_shape_distance? s1 s2).isSome := by
  intro n
  induction n using Nat.strong_induction_on with
  | _ n ih =>
    intro s1 s2 hcard hle
    obtain ⟨d, hd⟩ := shape_distance_some s1 s2 hcard
    have hall : ∀ c ∈ DIRS.map (fun dd => s1.translate dd),
        ∃ v, shape_distance? c s2 = some v := by
      intro c hc
      obtain ⟨dd, _, rfl⟩ := List.mem_map.mp hc
      exact shape_distance_some _ _ (by rw [card_shape_translate]; exact hcard)
    rw [min_shape_distance?.eq_def]
    split
    · rename_i heq
      rw [heq] at hd
      cases hd
    · rename_i d' heq
      have hdd : d' = d := by
        rw [heq] at hd
        exact (Option.some.injEq _ _ ▸ hd)
      subst hdd
      split
      · rename_i heq2
        obtain ⟨md, mt, hbt⟩ := bestTrans_isSome s2 _ hall d' s1
        rw [heq2] at hbt
        cases hbt
      · rename_i md_mt heq2
        split
        · simp
        · rename_i hms
          rcases bestTrans_spec s2 _ d' s1 md_mt.1 md_mt.2 (by rw [heq2]) with ⟨_, h4⟩ | ⟨h3, h5, h6⟩
          · exact absurd h4 hms
          · obtain ⟨dd, _, hddeq⟩ := List.mem_map.mp h5
            have hcard2 : md_mt.2.hexes.card = s2.hexes.card := by
              rw [← hddeq, card_shape_translate]; exact hcard
            have hlt : (shape_distance? md_mt.2 s2).getD 0 < n := by
              rw [h6]
              simp only [Option.getD_some]
              rw [hd] at hle
              simp only [Option.getD_some] at hle
              omega
            exact ih _ hlt md_mt.2 s2 hcard2 (le_refl _)

/-! ## `shape_distance` is the minimum over bijections -/

theorem sortHexes_nodup (s : Finset Hex) : (sortHexes s.val).Nodup := by
  rw [← Multiset.coe_nodup, sortHexes_coe]
  exact s.nodup

theorem sortHexes_length (s : Finset Hex) : (sortHexes s.val).length = s.card := by
  have h := congrArg Multiset.card (sortHexes_coe s.val)
  simpa using h

theorem mem_sortHexes (s : Finset Hex) (x : Hex) : x ∈ sortHexes s.val ↔ x ∈ s := by
  rw [← Multiset.mem_coe, sortHexes_coe]
  rfl

theorem sortHexes_toFinset (s : Finset Hex) : (sortHexes s.val).toFinset = s := by
  ext x
  rw [List.mem_toFinset, mem_sortHexes]

theorem pairCost_map (f : Hex → Hex) : ∀ l : List Hex,
    pairCost l (l.map f) = (l.map (fun h => distance h (f h) ^ 2)).sum := by
  intro l
  induction l with
  | nil => rfl
  | cons a l ih => simp [pairCost, ih]

theorem pairCost_pointwise : ∀ (l1 l2 : List Hex) (f : Hex → Hex),
    l1.length = l2.length →
    (∀ (i : Nat) (hi : i < l1.length) (hi2 : i < l2.length),
      f (l1.get ⟨i, hi⟩) = l2.get ⟨i, hi2⟩) →
    (l1.map (fun h => distance h (f h) ^ 2)).sum = pairCost l1 l2 := by
  intro l1
  induction l1 with
  | nil => intro l2 f _ _; cases l2 <;> rfl
  | cons a l ih =>
    intro l2 f hlen hf
    cases l2 with
    | nil => simp at hlen
    | cons b l2t =>
      have h0 := hf 0 (by simp) (by simp)
      simp only [List.get] at h0
      simp only [List.map_cons, List.sum_cons, pairCost, h0]
      congr 1
      apply ih l2t f (by simpa using hlen)
      intro i hi hi2
      have := hf (i + 1) (by simpa using Nat.succ_lt_succ hi) (by simpa using Nat.succ_lt_succ hi2)
      simpa using this

theorem bijCost_eq_list (f : Hex → Hex) (s1 : Shape) :
    bijCost f s1 = ((sortHexes s1.hexes.val).map (fun h => distance h (f h) ^ 2)).sum := by
  unfold bijCost
  rw [Finset.sum_eq_multiset_sum]
  conv_lhs => rw [← sortHexes_coe s1.hexes.val]
  rw [Multiset.map_coe, Multiset.sum_coe]

/-- Claim C4 core: on equal-size shapes, `shape_distance` returns exactly
the minimum of the total squared cell distance over all bijections between
the two cell sets. -/
theorem shape_distance_spec (s1 s2 : Shape) (hcard : s1.hexes.card = s2.hexes.card) :
    ∃ v, shape_distance? s1 s2 = some v ∧
      (∀ f : Hex → Hex, Set.BijOn f ↑s1.hexes ↑s2.hexes → v ≤ bijCost f s1) ∧
      (∃ f : Hex → Hex, Set.BijOn f ↑s1.hexes ↑s2.hexes ∧ v = bijCost f s1) := by
  have hn1 : (sortHexes s1.hexes.val).Nodup := sortHexes_nodup _
  have hn2 : (sortHexes s2.hexes.val).Nodup := sortHexes_nodup _
  set l1 := sortHexes s1.hexes.val
  set l2 := sortHexes s2.hexes.val
  have hlen12 : l1.length = l2.length := by
    rw [sortHexes_length, sortHexes_length, hcard]
  refine ⟨listMinNat (l2.permutations.map (pairCost l1)), ?_, ?_, ?_⟩
  · unfold shape_distance?
    rw [if_pos hcard]
  · intro f hbij
    have hmapnodup : (l1.map f).Nodup := by
      apply List.Nodup.map_on _ hn1
      intro x hx y hy hxy
      exact hbij.injOn (Finset.mem_coe.mpr ((mem_sortHexes _ x).mp hx))
        (Finset.mem_coe.mpr ((mem_sortHexes _ y).mp hy)) hxy
    have htof : (l1.map f).toFinset = s2.hexes := by
      apply Finset.eq_of_subset_of_card_le
      · intro y hy
        rw [List.mem_toFinset] at hy
        obtain ⟨x, hx, rfl⟩ := List.mem_map.mp hy
        exact Finset.mem_coe.mp
          (hbij.mapsTo (Finset.mem_coe.mpr ((mem_sortHexes _ x).mp hx)))
      · rw [List.toFinset_card_of_nodup hmapnodup, List.length_map, sortHexes_length, hcard]
    have hl' : (l1.map f) ∈ l2.permutations := by
      apply List.mem_permutations.mpr
      exact List.perm_of_nodup_nodup_toFinset_eq hmapnodup hn2
        (by rw [htof, sortHexes_toFinset])
    have hle := listMinNat_le (l2.permutations.map (pairCost l1)) (pairCost l1 (l1.map f))
      (List.mem_map.mpr ⟨l1.map f, hl', rfl⟩)
    rw [pairCost_map] at hle
    rw [bijCost_eq_list]
    exact hle
  · have hnonempty : l2.permutations.map (pairCost l1) ≠ [] := by
      simp only [ne_eq, List.map_eq_nil_iff]
      intro hc
      have hself : l2 ∈ l2.permutations := List.mem_permutations.mpr (List.Perm.refl l2)
      rw [hc] at hself
      exact absurd hself (List.not_mem_nil _)
    obtain ⟨l', hl'mem, hl'cost⟩ := List.mem_map.mp (listMinNat_mem _ hnonempty)
    have hperm : l'.Perm l2 := List.mem_permutations.mp hl'mem
    have hn' : l'.Nodup := hperm.symm.nodup hn2
    have hlen' : l1.length = l'.length := hlen12.trans hperm.length_eq.symm
    refine ⟨fun h => l'.getD (l1.indexOf h) OR, ⟨?_, ?_, ?_⟩, ?_⟩
    · -- maps to
      intro x hx
      dsimp only
      have hxl : x ∈ l1 := (mem_sortHexes _ x).mpr (Finset.mem_coe.mp hx)
      have hidx : l1.indexOf x < l1.length := List.indexOf_lt_length.mpr hxl
      have hidx' : l1.indexOf x < l'.length := by omega
      rw [List.getD_eq_get l' OR hidx']
      have hmem := List.get_mem l' _ hidx'
      exact Finset.mem_coe.mpr ((mem_sortHexes _ _).mp (hperm.mem_iff.mp hmem))
    · -- inj on
      intro x hx y hy hxy
      dsimp only at hxy
      have hxl : x ∈ l1 := (mem_sortHexes _ x).mpr (Finset.mem_coe.mp hx)
      have hyl : y ∈ l1 := (mem_sortHexes _ y).mpr (Finset.mem_coe.mp hy)
      have hix : l1.indexOf x < l1.length := List.indexOf_lt_length.mpr hxl
      have hiy : l1.indexOf y < l1.length := List.indexOf_lt_length.mpr hyl
      have hix' : l1.indexOf x < l'.length := by omega
      have hiy' : l1.indexOf y < l'.length := by omega
      rw [List.getD_eq_get l' OR hix', List.getD_eq_get l' OR hiy'] at hxy
      have : (⟨l1.indexOf x, hix'⟩ : Fin l'.length) = ⟨l1.indexOf y, hiy'⟩ :=
        (hn'.get_inj_iff).mp hxy
      have hidxeq : l1.indexOf x = l1.indexOf y := by
        simpa using this
      calc x = l1.get ⟨l1.indexOf x, hix⟩ := (List.indexOf_get hix).symm
        _ = l1.get ⟨l1.indexOf y, hiy⟩ := by congr 1; exact Fin.ext hidxeq
        _ = y := List.indexOf_get hiy
    · -- surj on
      intro y hy
      have hyl2 : y ∈ l2 := (mem_sortHexes _ y).mpr (Finset.mem_coe.mp hy)
      have hyl' : y ∈ l' := hperm.mem_iff.mpr hyl2
      obtain ⟨j, hj⟩ := List.mem_iff_get.mp hyl'
      have hjl1 : (j : Nat) < l1.length := by omega
      refine Set.mem_image_iff_bex.mpr ⟨l1.get ⟨j, hjl1⟩, ?_, ?_⟩
      · exact Finset.mem_coe.mpr ((mem_sortHexes _ _).mp (List.get_mem l1 _ hjl1))
      · show l'.getD (l1.indexOf (l1.get ⟨j, hjl1⟩)) OR = y
        have hidx : l1.indexOf (l1.get ⟨j, hjl1⟩) = (j : Nat) := by
          have := List.get_indexOf hn1 ⟨j, hjl1⟩
          simpa using this
        rw [hidx, List.getD_eq_get l' OR (by omega), ← hj]
    · -- the achieved cost
      rw [← hl'cost, bijCost_eq_list]
      symm
      apply pairCost_pointwise l1 l' _ hlen'
      intro i hi hi2
      have hidx : l1.indexOf (l1.get ⟨i, hi⟩) = i := by
        have := List.get_indexOf hn1 ⟨i, hi⟩
        simpa using this
      show l'.getD (l1.indexOf (l1.get ⟨i, hi⟩)) OR = l'.get ⟨i, hi2⟩
      rw [hidx, List.getD_eq_get l' OR hi2]

/-! ## Concrete shapes for the generator scenario -/

/-- The canonical seed `Shape.of(OR, UR)` of `generate_all`. -/
def seedShape : Shape := ⟨{⟨0, 0, 0⟩, ⟨0, 1, -1⟩}⟩

/-- Canonical straight 3-cell shape. -/
def shapeLine3 : Shape := ⟨{⟨0, 0, 0⟩, ⟨0, 1, -1⟩, ⟨0, 2, -2⟩}⟩

/-- Canonical bent 3-cell shape. -/
def shapeBend3 : Shape := ⟨{⟨0, 0, 0⟩, ⟨1, -1, 0⟩, ⟨2, -1, -1⟩}⟩

/-- Canonical triangular 3-cell shape. -/
def shapeTri3 : Shape := ⟨{⟨0, 0, 0⟩, ⟨1, -1, 0⟩, ⟨1, 0, -1⟩}⟩

set_option maxHeartbeats 2000000 in
theorem seed_eq : Shape.of [OR, UR] = seedShape := by decide

set_option maxHeartbeats 2000000 in
theorem ext_pairs : (seedShape.hexes ×ˢ DIRS.toFinset).filter
    (fun p => (p.1.add p.2) ∉ seedShape.hexes) =
    ({(⟨0, 0, 0⟩, ⟨0, -1, 1⟩), (⟨0, 0, 0⟩, ⟨1, -1, 0⟩), (⟨0, 0, 0⟩, ⟨1, 0, -1⟩),
      (⟨0, 0, 0⟩, ⟨-1, 1, 0⟩), (⟨0, 0, 0⟩, ⟨-1, 0, 1⟩), (⟨0, 1, -1⟩, ⟨1, -1, 0⟩),
      (⟨0, 1, -1⟩, ⟨1, 0, -1⟩), (⟨0, 1, -1⟩, ⟨0, 1, -1⟩), (⟨0, 1, -1⟩, ⟨-1, 1, 0⟩),
      (⟨0, 1, -1⟩, ⟨-1, 0, 1⟩)} : Finset (Hex × Hex)) := by decide

set_option maxHeartbeats 4000000 in
theorem ext_n1 : Shape.normalize ⟨insert (Hex.add ⟨0, 0, 0⟩ ⟨0, -1, 1⟩) seedShape.hexes⟩ =
    shapeLine3 :=
  Shape.ext_hexes _ _ (by decide)

set_option maxHeartbeats 4000000 in
theorem ext_n2 : Shape.normalize ⟨insert (Hex.add ⟨0, 0, 0⟩ ⟨1, -1, 0⟩) seedShape.hexes⟩ =
    shapeBend3 :=
  Shape.ext_hexes _ _ (by decide)

set_option maxHeartbeats 4000000 in
theorem ext_n3 : Shape.normalize ⟨insert (Hex.add ⟨0, 0, 0⟩ ⟨1, 0, -1⟩) seedShape.hexes⟩ =
    shapeTri3 :=
  Shape.ext_hexes _ _ (by decide)

set_option maxHeartbeats 4000000 in
theorem ext_n4 : Shape.normalize ⟨insert (Hex.add ⟨0, 0, 0⟩ ⟨-1, 1, 0⟩) seedShape.hexes⟩ =
    shapeTri3 :=
  Shape.ext_hexes _ _ (by decide)

set_option maxHeartbeats 4000000 in
theorem ext_n5 : Shape.normalize ⟨insert (Hex.add ⟨0, 0, 0⟩ ⟨-1, 0, 1⟩) seedShape.hexes⟩ =
    shapeBend3 :=
  Shape.ext_hexes _ _ (by decide)

set_option maxHeartbeats 4000000 in
theorem ext_n6 : Shape.normalize ⟨insert (Hex.add ⟨0, 1, -1⟩ ⟨1, -1, 0⟩) seedShape.hexes⟩ =
    shapeTri3 :=
  Shape.ext_hexes _ _ (by decide)

set_option maxHeartbeats 4000000 in
theorem ext_n7 : Shape.normalize ⟨insert (Hex.add ⟨0, 1, -1⟩ ⟨1, 0, -1⟩) seedShape.hexes⟩ =
    shapeBend3 :=
  Shape.ext_hexes _ _ (by decide)

set_option maxHeartbeats 4000000 in
theorem ext_n8 : Shape.normalize ⟨insert (Hex.add ⟨0, 1, -1⟩ ⟨0, 1, -1⟩) seedShape.hexes⟩ =
    shapeLine3 :=
  Shape.ext_hexes _ _ (by decide)

set_option maxHeartbeats 4000000 in
theorem ext_n9 : Shape.normalize ⟨insert (Hex.add ⟨0, 1, -1⟩ ⟨-1, 1, 0⟩) seedShape.hexes⟩ =
    shapeBend3 :=
  Shape.ext_hexes _ _ (by decide)

set_option maxHeartbeats 4000000 in
theorem ext_n10 : Shape.normalize ⟨insert (Hex.add ⟨0, 1, -1⟩ ⟨-1, 0, 1⟩) seedShape.hexes⟩ =
    shapeTri3 :=
  Shape.ext_hexes _ _ (by decide)

set_option maxHeartbeats 2000000 in
theorem extensions_seed : extensions seedShape = {shapeLine3, shapeBend3, shapeTri3} := by
  unfold extensions
  rw [ext_pairs]
  simp only [Finset.image_insert, Finset.image_singleton]
  rw [ext_n1, ext_n2, ext_n3, ext_n4, ext_n5, ext_n6, ext_n7, ext_n8, ext_n9, ext_n10]
  decide

set_option maxHeartbeats 2000000 in
theorem genStep_seed : genStep {seedShape} = {shapeLine3, shapeBend3, shapeTri3} := by
  unfold genStep
  rw [Finset.singleton_biUnion, extensions_seed]
  decide

/-! ## The claims -/

/-- Claim C1: canonicalization invariance.  For every shape of valid cells,
every rotation count and every translation, `normalize` returns the same
canonical form; and the canonical form is independent of the ordering in
which the cells are supplied (`Shape.of` on any permutation of a cell list
agrees). -/
theorem claim_C1 (s : Shape) (hv : ∀ h ∈ s.hexes, h.valid) :
    (∀ r : Nat, r ≤ 5 → (s.rotate (r : Int)).normalize = s.normalize) ∧
    (∀ t : Hex, (s.translate t).normalize = s.normalize) ∧
    (∀ l1 l2 : List Hex, l1.Perm l2 → Shape.of l1 = Shape.of l2) := by
  refine ⟨fun r _ => normalize_rotate s hv r, fun t => normalize_translate s t, ?_⟩
  intro l1 l2 hp
  unfold Shape.of
  have hf : l1.toFinset = l2.toFinset := by
    ext x
    simp only [List.mem_toFinset]
    exact hp.mem_iff
  rw [hf]

/-- Witness for C1 at a concrete two-cell shape. -/
theorem claim_C1_witness :
    ((seedShape.rotate (1 : Int)).normalize = seedShape.normalize) ∧
    ((seedShape.translate UR).normalize = seedShape.normalize) ∧
    Shape.of [OR, UR] = Shape.of [UR, OR] := by
  have h := claim_C1 seedShape (by decide)
  exact ⟨h.1 1 (by norm_num), h.2.1 UR, h.2.2 [OR, UR] [UR, OR] (by decide)⟩

/-- Claim C2: canonicalization idempotence — for every shape of valid cells
`normalize (normalize s) = normalize s` — and the empty shape is its own
canonical form. -/
theorem claim_C2 (s : Shape) (hv : ∀ h ∈ s.hexes, h.valid) :
    s.normalize.normalize = s.normalize ∧ (Shape.mk ∅).normalize = Shape.mk ∅ :=
  ⟨shape_normalize_idem s hv, normalize_empty _ rfl⟩

/-- Witness for C2 at a concrete two-cell shape. -/
theorem claim_C2_witness :
    seedShape.normalize.normalize = seedShape.normalize ∧
    (Shape.mk ∅).normalize = Shape.mk ∅ :=
  claim_C2 seedShape (by decide)

/-- Claim C3: the duplicate-detection contract of `ShapeSet.add` does not
hold in the code.  For every non-empty shape the call raises a `TypeError`
(`s.hexes[0]` subscripts a frozenset), modelled as `none` — it never
returns `true`, and a second call never returns `false`.  Only the empty
branch of the claim holds: an empty shape is rejected (`false`) and the
collection is unchanged. -/
theorem claim_C3 (ss : ShapeSet) (s : Shape) (hne : s.hexes ≠ ∅) :
    ShapeSet.add ss s = none ∧ ShapeSet.add ss ⟨∅⟩ = some (ss, false) := by
  unfold ShapeSet.add
  rw [if_neg hne, if_pos rfl]
  exact ⟨rfl, rfl⟩

/-- Witness for C3: adding a concrete non-empty shape to the empty
collection raises; adding the empty shape returns `false` and leaves the
collection unchanged. -/
theorem claim_C3_witness :
    ShapeSet.add ⟨[]⟩ seedShape = none ∧
    ShapeSet.add ⟨[]⟩ ⟨∅⟩ = some (⟨[]⟩, false) :=
  claim_C3 ⟨[]⟩ seedShape (by decide)

/-- Claim C4: on shapes of equal cell count, `shape_distance` succeeds and
returns exactly the minimum over all bijections between the two cell sets
of the total squared grid distance (the value is a `Nat`, hence
non-negative); on mismatched cell counts the assertion fails (`none`). -/
theorem claim_C4 (s1 s2 : Shape) :
    (s1.hexes.card = s2.hexes.card →
      ∃ v, shape_distance? s1 s2 = some v ∧
        (∀ f : Hex → Hex, Set.BijOn f ↑s1.hexes ↑s2.hexes → v ≤ bijCost f s1) ∧
        (∃ f : Hex → Hex, Set.BijOn f ↑s1.hexes ↑s2.hexes ∧ v = bijCost f s1)) ∧
    (s1.hexes.card ≠ s2.hexes.card → shape_distance? s1 s2 = none) :=
  ⟨fun hcard => shape_distance_spec s1 s2 hcard, fun hcard => shape_distance_none s1 s2 hcard⟩

/-- Witness for C4 on two concrete three-cell shapes (and a mismatched
pair). -/
theorem claim_C4_witness :
    (∃ v, shape_distance? shapeBend3 shapeTri3 = some v ∧
      (∀ f : Hex → Hex, Set.BijOn f ↑shapeBend3.hexes ↑shapeTri3.hexes →
        v ≤ bijCost f shapeBend3) ∧
      (∃ f : Hex → Hex, Set.BijOn f ↑shapeBend3.hexes ↑shapeTri3.hexes ∧
        v = bijCost f shapeBend3)) ∧
    shape_distance? seedShape shapeTri3 = none :=
  ⟨(claim_C4 shapeBend3 shapeTri3).1 (by decide), (claim_C4 seedShape shapeTri3).2 (by decide)⟩

/-- Claim C5 counterexample: normalizing the two-cell shape
`{(0,0,0), (0,1,-1)}` does NOT yield `{(0,0,0), (1,0,-1)}` as claimed.
With this code's direction constants (`UP = (0,-1,1)`), the rotation
selected by the ring-sum minimisation keeps the cell `(0,1,-1)`, so the
claimed canonical form is wrong. -/
theorem claim_C5_counterexample :
    Shape.normalize ⟨{⟨0, 0, 0⟩, ⟨0, 1, -1⟩}⟩ ≠
      (⟨{⟨0, 0, 0⟩, ⟨1, 0, -1⟩}⟩ : Shape) := by
  decide

/-- Claim C5 amended: normalizing `{(0,0,0), (0,1,-1)}` returns the shape
itself — it is already in canonical form. -/
theorem claim_C5_amended :
    Shape.normalize ⟨{⟨0, 0, 0⟩, ⟨0, 1, -1⟩}⟩ =
      (⟨{⟨0, 0, 0⟩, ⟨0, 1, -1⟩}⟩ : Shape) :=
  Shape.ext_hexes _ _ (by decide)

/-- Claim C6: rotation closure — for every hex, six steps is the identity,
rotations compose additively, and the step count is taken modulo 6
(negative counts included, since the steps are arbitrary integers). -/
theorem claim_C6 (h : Hex) (a b : Int) :
    h.rotate 6 = h ∧ (h.rotate a).rotate b = h.rotate (a + b) ∧
    h.rotate (a % 6) = h.rotate a :=
  ⟨rotate_six h, rotate_rotate h a b, rotate_emod h a⟩

/-- Claim C7: on every valid non-origin hex, the sector classification of
`ring_index` succeeds (the `raise ValueError` branch is unreachable, so
`ring_index?` returns a value) and the returned index lies below
`6 * ring` (it is a `Nat`, hence at least 0). -/
theorem claim_C7 (h : Hex) (hv : h.valid) (hnz : ¬ h.isOrigin) :
    h.ringIndex? = some h.ringIndex ∧ h.ringIndex < 6 * h.ring :=
  ⟨ringIndex_some h hv, ringIndex_lt h hv hnz⟩

/-- Witness for C7 at the concrete cell `(1,-1,0)`. -/
theorem claim_C7_witness :
    Hex.ringIndex? ⟨1, -1, 0⟩ = some (Hex.ringIndex ⟨1, -1, 0⟩) ∧
    Hex.ringIndex ⟨1, -1, 0⟩ < 6 * Hex.ring ⟨1, -1, 0⟩ :=
  claim_C7 ⟨1, -1, 0⟩ (by decide) (by decide)

/-- Claim C8: for every non-empty shape of valid cells, both floor
divisions in `normalize` are exact — the component sum of the scaled-up
shape is divisible by the cell count (the mean is exact), and after the
final translation every coordinate of every cell is divisible by the cell
count (scaling down loses nothing) — and every cell of the result is a
valid integer triple summing to zero (no `InvalidHexError` is ever
raised). -/
theorem claim_C8 (s : Shape) (hne : s.hexes ≠ ∅) (hv : ∀ h ∈ s.hexes, h.valid) :
    ((s.hexes.card : Int) ∣ (s.scale_up (s.hexes.card : Int)).sum.q ∧
      (s.hexes.card : Int) ∣ (s.scale_up (s.hexes.card : Int)).sum.r ∧
      (s.hexes.card : Int) ∣ (s.scale_up (s.hexes.card : Int)).sum.s) ∧
    (∀ h ∈ s.normPre.hexes, (s.hexes.card : Int) ∣ h.q ∧
      (s.hexes.card : Int) ∣ h.r ∧ (s.hexes.card : Int) ∣ h.s) ∧
    (∀ h ∈ s.normalize.hexes, h.valid) :=
  ⟨scaled_sum_div s hne, normPre_div s hne, normalize_valid s hv⟩

/-- Witness for C8 at a concrete two-cell shape. -/
theorem claim_C8_witness :
    ((seedShape.hexes.card : Int) ∣ (seedShape.scale_up (seedShape.hexes.card : Int)).sum.q ∧
      (seedShape.hexes.card : Int) ∣ (seedShape.scale_up (seedShape.hexes.card : Int)).sum.r ∧
      (seedShape.hexes.card : Int) ∣ (seedShape.scale_up (seedShape.hexes.card : Int)).sum.s) ∧
    (∀ h ∈ seedShape.normPre.hexes, (seedShape.hexes.card : Int) ∣ h.q ∧
      (seedShape.hexes.card : Int) ∣ h.r ∧ (seedShape.hexes.card : Int) ∣ h.s) ∧
    (∀ h ∈ seedShape.normalize.hexes, h.valid) :=
  claim_C8 seedShape (by decide) (by decide)

set_option maxHeartbeats 1000000 in
/-- Claim C9: `generate_all(3)` succeeds (3 ≥ 2) and returns exactly 3
distinct canonical shapes — the line, the bend and the triangle on three
cells. -/
theorem claim_C9 : ∃ g, generate_all 3 = some g ∧ g.card = 3 := by
  refine ⟨{shapeLine3, shapeBend3, shapeTri3}, ?_, by decide⟩
  unfold generate_all
  rw [if_pos (by norm_num)]
  have h32 : 3 - 2 = 1 := rfl
  rw [h32, Function.iterate_one, seed_eq]
  exact congrArg some genStep_seed

/-- Claim C10: on every pair of shapes of equal cell count,
`min_shape_distance` terminates with a value: each recursive call strictly
decreases the non-negative integer `shape_distance`, so the recursion is
well-founded, and no assertion fires along the way. -/
theorem claim_C10 (s1 s2 : Shape) (hcard : s1.hexes.card = s2.hexes.card) :
    (min_shape_distance? s1 s2).isSome :=
  min_shape_distance_isSome ((shape_distance? s1 s2).getD 0) s1 s2 hcard (le_refl _)

/-- Witness for C10 on two concrete three-cell shapes. -/
theorem claim_C10_witness : (min_shape_distance? shapeBend3 shapeTri3).isSome :=
  claim_C10 shapeBend3 shapeTri3 (by decide)
